import Mathlib

/-!
Shallow embedding of the tokenizer in `src/lexer.rs` of the repository
(`TokenIter` and its `Iterator` implementation), together with theorems
checking its specification.

Bytes are modelled as `Nat` (values 0–255 in any real buffer); the borrowed
byte slice is a `List Nat`; the cursor fields `last_index` / `index` are the
Rust fields of the same names.  Rust loops become well-founded recursion on
`bytes.length - index`.  The `?` operator inside `Iterator::next` (early
return of `None`) is modelled with `Except TokenIter TokenIter`, where
`Except.error s` carries the mutated state at the point the early return
fired, and `Except.ok s` is normal continuation.

The external collaborators that live in this repository but outside the
lexer source (`Keyword::from_str`, `Ty::from_str`, and the `Value` literal
payloads) are modelled per the spec: resolvers are arbitrary `String →
Option String` parameters, and literal parsing is exact (see the
`Modelled from the spec:` doc comments).
-/

namespace Nail

/-- A source byte.  Real buffers only contain values `< 256`. -/
abbrev Byte := Nat

/-- The cursor state of `TokenIter<'a>`: the borrowed byte buffer and the
two byte offsets `last_index` (span start) and `index` (next unread). -/
structure TokenIter where
  bytes : List Byte
  last_index : Nat
  index : Nat
deriving Repr, DecidableEq

/-- Rust `TokenIter::src_pos`: the half-open range `last_index..index`. -/
def src_pos (it : TokenIter) : Nat × Nat := (it.last_index, it.index)

/-- Rust `TokenIter::peek_byte`: the byte at `index`, without advancing. -/
def peek_byte (it : TokenIter) : Option Byte := it.bytes[it.index]?

/-- Rust `TokenIter::next_byte`: the byte at `index`, advancing past it. -/
def next_byte (it : TokenIter) : Option (Byte × TokenIter) :=
  match it.bytes[it.index]? with
  | some b => some (b, { it with index := it.index + 1 })
  | none => none

/-- Rust `TokenIter::next_byte_if`: advance only if the peeked byte satisfies `f`. -/
def next_byte_if (f : Byte → Bool) (it : TokenIter) : Option (Byte × TokenIter) :=
  match peek_byte it with
  | some b => if f b then next_byte it else none
  | none => none

/-- Rust `u8::is_ascii_whitespace`: space, horizontal tab, line feed, form feed,
carriage return. -/
def isWsB (b : Byte) : Bool := b == 32 || b == 9 || b == 10 || b == 12 || b == 13

/-- The `b'a'..=b'z' | b'A'..=b'Z'` range test. -/
def isLetterB (b : Byte) : Bool := (97 ≤ b && b ≤ 122) || (65 ≤ b && b ≤ 90)

/-- The `b'0'..=b'9'` range test. -/
def isDigitB (b : Byte) : Bool := 48 ≤ b && b ≤ 57

/-- The identifier-continuation test `b'a'..=b'z' | b'A'..=b'Z' | b'0'..=b'9' | b'_'`. -/
def isIdentB (b : Byte) : Bool := isLetterB b || isDigitB b || b == 95

/-- The numeric-continuation test `b'.' | b'0'..=b'9'`. -/
def isNumB (b : Byte) : Bool := b == 46 || isDigitB b

theorem next_byte_some {it : TokenIter} {b : Byte} {it' : TokenIter}
    (h : next_byte it = some (b, it')) :
    it'.bytes = it.bytes ∧ it'.last_index = it.last_index ∧
      it'.index = it.index + 1 ∧ it.index < it.bytes.length ∧
      it.bytes[it.index]? = some b := by
  unfold next_byte at h
  split at h
  next c hg =>
    simp only [Option.some.injEq, Prod.mk.injEq] at h
    obtain ⟨rfl, rfl⟩ := h
    exact ⟨rfl, rfl, rfl, (List.getElem?_eq_some_iff.mp hg).1, hg⟩
  next => exact absurd h (by simp)

theorem next_byte_none {it : TokenIter} (h : next_byte it = none) :
    it.bytes.length ≤ it.index := by
  unfold next_byte at h
  rcases hg : it.bytes[it.index]? with _ | c
  · exact Nat.le_of_not_lt (fun hlt => (List.getElem?_eq_none_iff.mp hg).not_lt hlt)
  · rw [hg] at h; exact absurd h (by simp)

theorem next_byte_if_some {f : Byte → Bool} {it : TokenIter} {b : Byte} {it' : TokenIter}
    (h : next_byte_if f it = some (b, it')) :
    it'.bytes = it.bytes ∧ it'.last_index = it.last_index ∧
      it'.index = it.index + 1 ∧ it.index < it.bytes.length ∧
      it.bytes[it.index]? = some b ∧ f b = true := by
  unfold next_byte_if at h
  split at h
  next c hg =>
    split at h
    next hf =>
      obtain ⟨h1, h2, h3, h4, h5⟩ := next_byte_some h
      have hbc : c = b := by
        unfold peek_byte at hg
        rw [hg] at h5; injection h5
      subst hbc
      exact ⟨h1, h2, h3, h4, hg, hf⟩
    next => exact absurd h (by simp)
  next => exact absurd h (by simp)

theorem peek_byte_some {it : TokenIter} {b : Byte} (h : peek_byte it = some b) :
    it.index < it.bytes.length := by
  exact (List.getElem?_eq_some_iff.mp h).1

theorem peek_byte_none {it : TokenIter} (h : peek_byte it = none) :
    it.bytes.length ≤ it.index := by
  exact Nat.le_of_not_lt (fun hlt => (List.getElem?_eq_none_iff.mp h).not_lt hlt)

/-- The loop `while self.peek_byte()?.is_ascii_whitespace() { _ = self.next_byte(); }`
— both whitespace loops of `Iterator::next`.  `Except.error s` models the
early `return None` fired by `?` when `peek_byte` yields nothing, with `s`
the state at that moment; the discarded `next_byte` after a successful peek
is the increment of `index`. -/
def wsSkipQ (it : TokenIter) : Except TokenIter TokenIter :=
  match h : peek_byte it with
  | none => Except.error it
  | some b =>
    if isWsB b then wsSkipQ { it with index := it.index + 1 }
    else Except.ok it
termination_by it.bytes.length - it.index
decreasing_by
  have := peek_byte_some h
  omega

/-- The block-comment scan

`loop { if self.next_byte()? != b'!' { continue } if self.peek_byte()? == b'#' { break } }`.

`Except.ok s` is the `break`: the closing `#` is still unconsumed at `s`. -/
def blockLoop (it : TokenIter) : Except TokenIter TokenIter :=
  match h : next_byte it with
  | none => Except.error it
  | some (b, it') =>
    if b ≠ 33 then blockLoop it'
    else
      match peek_byte it' with
      | none => Except.error it'
      | some c => if c = 35 then Except.ok it' else blockLoop it'
termination_by it.bytes.length - it.index
decreasing_by
  all_goals
    obtain ⟨h1, -, h3, h4, -⟩ := next_byte_some h
    rw [h1, h3]
    omega

/-- The line-comment scan `while self.next_byte()? != b'\n' {}`. -/
def lineLoop (it : TokenIter) : Except TokenIter TokenIter :=
  match h : next_byte it with
  | none => Except.error it
  | some (b, it') => if b = 10 then Except.ok it' else lineLoop it'
termination_by it.bytes.length - it.index
decreasing_by
  obtain ⟨h1, -, h3, h4, -⟩ := next_byte_some h
  rw [h1, h3]
  omega

theorem wsSkipQ_error {it s : TokenIter} (h : wsSkipQ it = Except.error s) :
    s.bytes = it.bytes ∧ s.last_index = it.last_index ∧ it.index ≤ s.index ∧
      peek_byte s = none := by
  induction it using wsSkipQ.induct with
  | case1 it hp =>
    rw [wsSkipQ, hp] at h
    injection h with h; subst h
    exact ⟨rfl, rfl, Nat.le_refl _, hp⟩
  | case2 it b hp hw ih =>
    rw [wsSkipQ, hp] at h
    dsimp only at h
    rw [if_pos hw] at h
    obtain ⟨h1, h2, h3, h4⟩ := ih h
    dsimp only at h1 h2 h3
    exact ⟨h1, h2, by omega, h4⟩
  | case3 it b hp hw =>
    rw [wsSkipQ, hp] at h
    dsimp only at h
    rw [if_neg hw] at h
    exact absurd h (by simp)

theorem wsSkipQ_ok {it s : TokenIter} (h : wsSkipQ it = Except.ok s) :
    s.bytes = it.bytes ∧ s.last_index = it.last_index ∧ it.index ≤ s.index ∧
      ∃ b, peek_byte s = some b ∧ isWsB b = false := by
  induction it using wsSkipQ.induct with
  | case1 it hp =>
    rw [wsSkipQ, hp] at h
    exact absurd h (by simp)
  | case2 it b hp hw ih =>
    rw [wsSkipQ, hp] at h
    dsimp only at h
    rw [if_pos hw] at h
    obtain ⟨h1, h2, h3, h4⟩ := ih h
    dsimp only at h1 h2 h3
    exact ⟨h1, h2, by omega, h4⟩
  | case3 it b hp hw =>
    rw [wsSkipQ, hp] at h
    dsimp only at h
    rw [if_neg hw] at h
    injection h with h; subst h
    exact ⟨rfl, rfl, Nat.le_refl _, b, hp, by simpa using hw⟩

theorem blockLoop_error {it s : TokenIter} (h : blockLoop it = Except.error s) :
    s.bytes = it.bytes ∧ s.last_index = it.last_index ∧ it.index ≤ s.index ∧
      peek_byte s = none := by
  induction it using blockLoop.induct with
  | case1 it hn =>
    rw [blockLoop, hn] at h
    injection h with h; subst h
    refine ⟨rfl, rfl, Nat.le_refl _, ?_⟩
    unfold peek_byte
    exact List.getElem?_eq_none (next_byte_none hn)
  | case2 it b it' hn hb ih =>
    rw [blockLoop, hn] at h
    dsimp only at h
    rw [if_pos hb] at h
    obtain ⟨h1, h2, h3, h4⟩ := ih h
    obtain ⟨g1, g2, g3, -, -⟩ := next_byte_some hn
    exact ⟨h1.trans g1, h2.trans g2, by omega, h4⟩
  | case3 it b it' hn hb hp =>
    rw [blockLoop, hn] at h
    dsimp only at h
    rw [if_neg hb, hp] at h
    injection h with h; subst h
    obtain ⟨g1, g2, g3, -, -⟩ := next_byte_some hn
    exact ⟨g1, g2, by omega, hp⟩
  | case4 it b it' hn hb hp =>
    rw [blockLoop, hn] at h
    dsimp only at h
    rw [if_neg hb, hp] at h
    dsimp only at h
    exact absurd h (by simp)
  | case5 it b it' hn hb c hp hc ih =>
    rw [blockLoop, hn] at h
    dsimp only at h
    rw [if_neg hb, hp] at h
    dsimp only at h
    rw [if_neg hc] at h
    obtain ⟨h1, h2, h3, h4⟩ := ih h
    obtain ⟨g1, g2, g3, -, -⟩ := next_byte_some hn
    exact ⟨h1.trans g1, h2.trans g2, by omega, h4⟩

theorem blockLoop_ok {it s : TokenIter} (h : blockLoop it = Except.ok s) :
    s.bytes = it.bytes ∧ s.last_index = it.last_index ∧ it.index < s.index ∧
      peek_byte s = some 35 := by
  induction it using blockLoop.induct with
  | case1 it hn =>
    rw [blockLoop, hn] at h
    exact absurd h (by simp)
  | case2 it b it' hn hb ih =>
    rw [blockLoop, hn] at h
    dsimp only at h
    rw [if_pos hb] at h
    obtain ⟨h1, h2, h3, h4⟩ := ih h
    obtain ⟨g1, g2, g3, -, -⟩ := next_byte_some hn
    exact ⟨h1.trans g1, h2.trans g2, by omega, h4⟩
  | case3 it b it' hn hb hp =>
    rw [blockLoop, hn] at h
    dsimp only at h
    rw [if_neg hb, hp] at h
    exact absurd h (by simp)
  | case4 it b it' hn hb hp =>
    rw [blockLoop, hn] at h
    dsimp only at h
    rw [if_neg hb, hp] at h
    dsimp only at h
    injection h with h; subst h
    obtain ⟨g1, g2, g3, -, -⟩ := next_byte_some hn
    exact ⟨g1, g2, by omega, hp⟩
  | case5 it b it' hn hb c hp hc ih =>
    rw [blockLoop, hn] at h
    dsimp only at h
    rw [if_neg hb, hp] at h
    dsimp only at h
    rw [if_neg hc] at h
    obtain ⟨h1, h2, h3, h4⟩ := ih h
    obtain ⟨g1, g2, g3, -, -⟩ := next_byte_some hn
    exact ⟨h1.trans g1, h2.trans g2, by omega, h4⟩

theorem lineLoop_error {it s : TokenIter} (h : lineLoop it = Except.error s) :
    s.bytes = it.bytes ∧ s.last_index = it.last_index ∧ it.index ≤ s.index ∧
      peek_byte s = none := by
  induction it using lineLoop.induct with
  | case1 it hn =>
    rw [lineLoop, hn] at h
    injection h with h; subst h
    refine ⟨rfl, rfl, Nat.le_refl _, ?_⟩
    unfold peek_byte
    exact List.getElem?_eq_none (next_byte_none hn)
  | case2 it it' hn =>
    rw [lineLoop, hn] at h
    dsimp only at h
    exact absurd h (by simp)
  | case3 it b it' hn hb ih =>
    rw [lineLoop, hn] at h
    dsimp only at h
    rw [if_neg hb] at h
    obtain ⟨h1, h2, h3, h4⟩ := ih h
    obtain ⟨g1, g2, g3, -, -⟩ := next_byte_some hn
    exact ⟨h1.trans g1, h2.trans g2, by omega, h4⟩

theorem lineLoop_ok {it s : TokenIter} (h : lineLoop it = Except.ok s) :
    s.bytes = it.bytes ∧ s.last_index = it.last_index ∧ it.index < s.index := by
  induction it using lineLoop.induct with
  | case1 it hn =>
    rw [lineLoop, hn] at h
    exact absurd h (by simp)
  | case2 it it' hn =>
    rw [lineLoop, hn] at h
    dsimp only at h
    injection h with h; subst h
    obtain ⟨g1, g2, g3, -, -⟩ := next_byte_some hn
    exact ⟨g1, g2, by omega⟩
  | case3 it b it' hn hb ih =>
    rw [lineLoop, hn] at h
    dsimp only at h
    rw [if_neg hb] at h
    obtain ⟨h1, h2, h3⟩ := ih h
    obtain ⟨g1, g2, g3, -, -⟩ := next_byte_some hn
    exact ⟨h1.trans g1, h2.trans g2, by omega⟩

/-- The comment-kind dispatch in `Iterator::next`: the single byte consumed
right after a `#` selects block comment (`!`), empty comment (newline), or
line comment (anything else). -/
def commentKind (c : Byte) (it : TokenIter) : Except TokenIter TokenIter :=
  if c = 33 then blockLoop it
  else if c = 10 then Except.ok it
  else lineLoop it

theorem commentKind_error {c : Byte} {it s : TokenIter}
    (h : commentKind c it = Except.error s) :
    s.bytes = it.bytes ∧ s.last_index = it.last_index ∧ it.index ≤ s.index ∧
      peek_byte s = none := by
  unfold commentKind at h
  split at h
  · exact blockLoop_error h
  · split at h
    · exact absurd h (by simp)
    · exact lineLoop_error h

theorem commentKind_ok {c : Byte} {it s : TokenIter}
    (h : commentKind c it = Except.ok s) :
    s.bytes = it.bytes ∧ s.last_index = it.last_index ∧ it.index ≤ s.index := by
  unfold commentKind at h
  split at h
  · obtain ⟨h1, h2, h3, -⟩ := blockLoop_ok h
    exact ⟨h1, h2, Nat.le_of_lt h3⟩
  · split at h
    · injection h with h; subst h
      exact ⟨rfl, rfl, Nat.le_refl _⟩
    · obtain ⟨h1, h2, h3⟩ := lineLoop_ok h
      exact ⟨h1, h2, Nat.le_of_lt h3⟩

/-- The comment-skipping loop of `Iterator::next`:

`while let Some(b'#') = self.peek_byte() { ... }`

including the trailing whitespace skip inside the loop body.  `Except.error`
again models the early `return None` of the `?` operators. -/
def commentLoop (it : TokenIter) : Except TokenIter TokenIter :=
  match hp : peek_byte it with
  | some 35 =>
    -- `_ = self.next_byte()`: consume the peeked `#`.
    match hn : next_byte { it with index := it.index + 1 } with
    | none => Except.error { it with index := it.index + 1 }
    | some (c, it2) =>
      match hd : commentKind c it2 with
      | Except.error s => Except.error s
      | Except.ok it3 =>
        match hw : wsSkipQ it3 with
        | Except.error s => Except.error s
        | Except.ok it4 => commentLoop it4
  | _ => Except.ok it
termination_by it.bytes.length - it.index
decreasing_by
  have h0 := peek_byte_some hp
  obtain ⟨g1, g2, g3, -, -⟩ := next_byte_some hn
  obtain ⟨d1, d2, d3⟩ := commentKind_ok hd
  obtain ⟨w1, w2, w3, -⟩ := wsSkipQ_ok hw
  dsimp only at g1 g3
  rw [w1, d1, g1]
  omega

theorem commentLoop_error {it s : TokenIter} (h : commentLoop it = Except.error s) :
    s.bytes = it.bytes ∧ s.last_index = it.last_index ∧ it.index ≤ s.index ∧
      peek_byte s = none := by
  induction it using commentLoop.induct with
  | case1 it hp hn =>
    rw [commentLoop, hp] at h
    dsimp only at h
    rw [hn] at h
    injection h with h; subst h
    have := next_byte_none hn
    dsimp only at this ⊢
    refine ⟨rfl, rfl, by omega, ?_⟩
    unfold peek_byte
    exact List.getElem?_eq_none (by simpa using this)
  | case2 it hp b it' hn s' hd =>
    rw [commentLoop, hp] at h
    dsimp only at h
    rw [hn] at h
    dsimp only at h
    rw [hd] at h
    injection h with h; subst h
    obtain ⟨g1, g2, g3, -, -⟩ := next_byte_some hn
    obtain ⟨d1, d2, d3, d4⟩ := commentKind_error hd
    dsimp only at g1 g2 g3
    exact ⟨d1.trans g1, d2.trans g2, by omega, d4⟩
  | case3 it hp b it' hn it3 hd s' hw =>
    rw [commentLoop, hp] at h
    dsimp only at h
    rw [hn] at h
    dsimp only at h
    rw [hd] at h
    dsimp only at h
    rw [hw] at h
    injection h with h; subst h
    obtain ⟨g1, g2, g3, -, -⟩ := next_byte_some hn
    obtain ⟨d1, d2, d3⟩ := commentKind_ok hd
    obtain ⟨w1, w2, w3, w4⟩ := wsSkipQ_error hw
    dsimp only at g1 g2 g3
    exact ⟨(w1.trans d1).trans g1, (w2.trans d2).trans g2, by omega, w4⟩
  | case4 it hp b it' hn it3 hd it4 hw ih =>
    rw [commentLoop, hp] at h
    dsimp only at h
    rw [hn] at h
    dsimp only at h
    rw [hd] at h
    dsimp only at h
    rw [hw] at h
    obtain ⟨h1, h2, h3, h4⟩ := ih h
    obtain ⟨g1, g2, g3, -, -⟩ := next_byte_some hn
    obtain ⟨d1, d2, d3⟩ := commentKind_ok hd
    obtain ⟨w1, w2, w3, -⟩ := wsSkipQ_ok hw
    dsimp only at g1 g2 g3
    refine ⟨?_, ?_, by omega, h4⟩
    · rw [h1, w1, d1, g1]
    · rw [h2, w2, d2, g2]
  | case5 it hnp =>
    rw [commentLoop] at h
    split at h
    next hp => exact absurd hp (by simpa using hnp)
    next => exact absurd h (by simp)

theorem commentLoop_ok {it s : TokenIter} (h : commentLoop it = Except.ok s) :
    s.bytes = it.bytes ∧ s.last_index = it.last_index ∧ it.index ≤ s.index ∧
      peek_byte s ≠ some 35 := by
  induction it using commentLoop.induct with
  | case1 it hp hn =>
    rw [commentLoop, hp] at h
    dsimp only at h
    rw [hn] at h
    exact absurd h (by simp)
  | case2 it hp b it' hn s' hd =>
    rw [commentLoop, hp] at h
    dsimp only at h
    rw [hn] at h
    dsimp only at h
    rw [hd] at h
    exact absurd h (by simp)
  | case3 it hp b it' hn it3 hd s' hw =>
    rw [commentLoop, hp] at h
    dsimp only at h
    rw [hn] at h
    dsimp only at h
    rw [hd] at h
    dsimp only at h
    rw [hw] at h
    exact absurd h (by simp)
  | case4 it hp b it' hn it3 hd it4 hw ih =>
    rw [commentLoop, hp] at h
    dsimp only at h
    rw [hn] at h
    dsimp only at h
    rw [hd] at h
    dsimp only at h
    rw [hw] at h
    obtain ⟨h1, h2, h3, h4⟩ := ih h
    obtain ⟨g1, g2, g3, -, -⟩ := next_byte_some hn
    obtain ⟨d1, d2, d3⟩ := commentKind_ok hd
    obtain ⟨w1, w2, w3, -⟩ := wsSkipQ_ok hw
    dsimp only at g1 g2 g3
    refine ⟨?_, ?_, by omega, h4⟩
    · rw [h1, w1, d1, g1]
    · rw [h2, w2, d2, g2]
  | case5 it hnp =>
    rw [commentLoop] at h
    split at h
    next hp => exact absurd hp (by simpa using hnp)
    next =>
      injection h with h; subst h
      exact ⟨rfl, rfl, Nat.le_refl _, by simpa using hnp⟩

/-- Literal payloads (the `Value` type lives outside the lexer source).
Modelled from the spec: the literal value representation is an external
collaborator; string content is carried as the exact bytes captured between
the quotes (UTF-8 decoding is injective, so this is faithful), and numeric
payloads carry the exact numeric value of the digit text
(`Integer(digits-as-number)`, `Float(digits-as-number)`). -/
inductive Value where
  | Str : List Byte → Value
  | Int : Int → Value
  | Float : Rat → Value
deriving Repr, DecidableEq

/-- The five `TokenizeError` variants of `lexer.rs`. -/
inductive TokenizeError where
  | NonTerminatedStr
  | NonUTF8
  | UnexpectedCharacter
  | InvalidFloatLiteral
  | InvalidIntLiteral
deriving Repr, DecidableEq

/-- The token type produced by the lexer.  `Keyword` and `Ty` live outside
the lexer source; modelled from the spec as members of externally defined
closed sets, represented here by the identifier the resolver returned. -/
inductive Token where
  | Keyword : String → Token
  | Ty : String → Token
  | Identifier : String → Token
  | Literal : Value → Token
  | Star
  | Comma
  | Colon
  | SemiColon
  | At
  | LeftSmooth
  | RightSmooth
  | QuestionMark
deriving Repr, DecidableEq

/-- Rust `pub type Result = std::result::Result<Token, TokenizeError>`. -/
abbrev LexResult := Except TokenizeError Token

/-- The identifier accumulation loop of `next_token` (letter arm):
`while let Some(byte) = self.next_byte_if(matches a-z A-Z 0-9 _) { bytes.push(byte) }`. -/
def identLoop (it : TokenIter) (acc : List Byte) : List Byte × TokenIter :=
  match h : next_byte_if isIdentB it with
  | some (b, it') => identLoop it' (acc ++ [b])
  | none => (acc, it)
termination_by it.bytes.length - it.index
decreasing_by
  obtain ⟨h1, -, h3, h4, -, -⟩ := next_byte_if_some h
  rw [h1, h3]
  omega

/-- Continuation byte test `0x80..=0xBF`. -/
def isCont (b : Byte) : Bool := 128 ≤ b && b ≤ 191

/-- UTF-8 validity of a byte sequence, the check done by `String::from_utf8`
(RFC 3629: no overlong forms, no surrogates, maximum U+10FFFF). -/
def utf8Valid : List Byte → Bool
  | [] => true
  | b :: rest =>
    if b ≤ 127 then utf8Valid rest
    else if 194 ≤ b && b ≤ 223 then
      match rest with
      | c :: rest2 => isCont c && utf8Valid rest2
      | _ => false
    else if b = 224 then
      match rest with
      | c :: d :: rest2 => (160 ≤ c && c ≤ 191) && isCont d && utf8Valid rest2
      | _ => false
    else if (225 ≤ b && b ≤ 236) || (238 ≤ b && b ≤ 239) then
      match rest with
      | c :: d :: rest2 => isCont c && isCont d && utf8Valid rest2
      | _ => false
    else if b = 237 then
      match rest with
      | c :: d :: rest2 => (128 ≤ c && c ≤ 159) && isCont d && utf8Valid rest2
      | _ => false
    else if b = 240 then
      match rest with
      | c :: d :: e :: rest2 => (144 ≤ c && c ≤ 191) && isCont d && isCont e && utf8Valid rest2
      | _ => false
    else if 241 ≤ b && b ≤ 243 then
      match rest with
      | c :: d :: e :: rest2 => isCont c && isCont d && isCont e && utf8Valid rest2
      | _ => false
    else if b = 244 then
      match rest with
      | c :: d :: e :: rest2 => (128 ≤ c && c ≤ 143) && isCont d && isCont e && utf8Valid rest2
      | _ => false
    else false

/-- The string-literal loop of `next_token` (`b'"'` arm): consume raw bytes
until a closing quote is consumed; end of buffer fails with
`NonTerminatedStr`; on the closing quote, `String::from_utf8` either fails
(`NonUTF8`) or yields the string literal. -/
def strLoop (it : TokenIter) (acc : List Byte) : LexResult × TokenIter :=
  match h : next_byte it with
  | none => (Except.error TokenizeError.NonTerminatedStr, it)
  | some (b, it') =>
    if b = 34 then
      (if utf8Valid acc then Except.ok (Token.Literal (Value.Str acc))
       else Except.error TokenizeError.NonUTF8, it')
    else strLoop it' (acc ++ [b])
termination_by it.bytes.length - it.index
decreasing_by
  obtain ⟨h1, -, h3, h4, -⟩ := next_byte_some h
  rw [h1, h3]
  omega

/-- The numeric loop of `next_token` (digit arm):
`while let Some(byte) = self.next_byte_if(matches . 0-9)` with the
seen-decimal-point flag `dot`; a second `.` is consumed by `next_byte_if`
but `break` fires before it is pushed. -/
def numLoop (it : TokenIter) (acc : List Byte) (dot : Bool) :
    List Byte × Bool × TokenIter :=
  match h : next_byte_if isNumB it with
  | none => (acc, dot, it)
  | some (b, it') =>
    if b = 46 then
      if dot then (acc, dot, it')
      else numLoop it' (acc ++ [b]) true
    else numLoop it' (acc ++ [b]) dot
termination_by it.bytes.length - it.index
decreasing_by
  all_goals
    obtain ⟨h1, -, h3, h4, -, -⟩ := next_byte_if_some h
    rw [h1, h3]
    omega

/-- Decode a byte run known by construction to be ASCII
(`std::str::from_utf8_unchecked` on identifier or digit runs). -/
def asciiToString (bs : List Byte) : String := String.mk (bs.map Char.ofNat)

/-- The numeric value of a decimal digit string. -/
def natOfDigits (bs : List Byte) : Nat :=
  bs.foldl (fun acc b => 10 * acc + (b - 48)) 0

/-- Modelled from the spec: the integer-literal constructor reached through
`.parse()` into `Value::Int` (the payload type lives outside the lexer
source).  Per the spec, `Literal(Integer)` carries the exact numeric value
of the digits, so parsing a nonempty all-digit run succeeds exactly. -/
def parseIntSpec (bs : List Byte) : Option Int :=
  if !bs.isEmpty && bs.all isDigitB then some (natOfDigits bs : Nat) else none

/-- Modelled from the spec: the float-literal constructor reached through
`.parse()` into `Value::Float` (the payload type lives outside the lexer
source).  Per the spec the payload is `digits-as-number`: a run
`d…d.d…d` (digits, one dot, then digits — possibly none) parses to its
exact rational value; a bare digit run also parses. -/
def parseFloatSpec (bs : List Byte) : Option Rat :=
  let intPart := bs.takeWhile isDigitB
  match bs.dropWhile isDigitB with
  | 46 :: frac =>
    if !intPart.isEmpty && frac.all isDigitB then
      some ((natOfDigits intPart : Rat) + (natOfDigits frac : Rat) / ((10 : Rat) ^ frac.length))
    else none
  | [] => if !intPart.isEmpty then some ((natOfDigits intPart : Rat)) else none
  | _ => none

/-- Rust `TokenIter::next_token`, parameterised by the external resolvers
`Keyword::from_str` and `Ty::from_str` (modelled from the spec as arbitrary
name-to-identifier maps into the external closed sets). -/
def next_token (kw ty : String → Option String) (byte : Byte) (it : TokenIter) :
    LexResult × TokenIter :=
  if isLetterB byte then
    match identLoop it [byte] with
    | (bs, it') =>
      let str := asciiToString bs
      match kw str with
      | some k => (Except.ok (Token.Keyword k), it')
      | none =>
        match ty str with
        | some t => (Except.ok (Token.Ty t), it')
        | none => (Except.ok (Token.Identifier str), it')
  else if byte = 34 then
    strLoop it []
  else if isDigitB byte then
    match numLoop it [byte] false with
    | (bs, dot, it') =>
      if dot then
        match parseFloatSpec bs with
        | some q => (Except.ok (Token.Literal (Value.Float q)), it')
        | none => (Except.error TokenizeError.InvalidFloatLiteral, it')
      else
        match parseIntSpec bs with
        | some n => (Except.ok (Token.Literal (Value.Int n)), it')
        | none => (Except.error TokenizeError.InvalidIntLiteral, it')
  else if byte = 42 then (Except.ok Token.Star, it)
  else if byte = 44 then (Except.ok Token.Comma, it)
  else if byte = 58 then (Except.ok Token.Colon, it)
  else if byte = 59 then (Except.ok Token.SemiColon, it)
  else if byte = 64 then (Except.ok Token.At, it)
  else if byte = 40 then (Except.ok Token.LeftSmooth, it)
  else if byte = 41 then (Except.ok Token.RightSmooth, it)
  else if byte = 63 then (Except.ok Token.QuestionMark, it)
  else (Except.error TokenizeError.UnexpectedCharacter, it)

/-- Rust `Iterator::next`: skip whitespace, skip comments (each `?` producing
`(none, state)`), record `last_index`, consume the first significant byte
and dispatch to `next_token`.  The pair carries the mutated iterator state
alongside the optional result, mirroring `&mut self`. -/
def next (kw ty : String → Option String) (it : TokenIter) :
    Option LexResult × TokenIter :=
  match wsSkipQ it with
  | Except.error s => (none, s)
  | Except.ok it1 =>
    match commentLoop it1 with
    | Except.error s => (none, s)
    | Except.ok it2 =>
      let it3 : TokenIter := { it2 with last_index := it2.index }
      match next_byte it3 with
      | none => (none, it3)
      | some (b, it4) =>
        match next_token kw ty b it4 with
        | (r, it5) => (some r, it5)

theorem identLoop_mono {it : TokenIter} {acc bs : List Byte} {it2 : TokenIter}
    (h : identLoop it acc = (bs, it2)) :
    it2.bytes = it.bytes ∧ it2.last_index = it.last_index ∧ it.index ≤ it2.index := by
  induction it, acc using identLoop.induct with
  | case1 it acc b it' hn ih =>
    rw [identLoop, hn] at h
    obtain ⟨h1, h2, h3⟩ := ih h
    obtain ⟨g1, g2, g3, -, -, -⟩ := next_byte_if_some hn
    exact ⟨h1.trans g1, h2.trans g2, by omega⟩
  | case2 it acc hn =>
    rw [identLoop, hn] at h
    injection h with h1 h2; subst h1; subst h2
    exact ⟨rfl, rfl, Nat.le_refl _⟩

theorem strLoop_mono {it : TokenIter} {acc : List Byte} {r : LexResult} {it2 : TokenIter}
    (h : strLoop it acc = (r, it2)) :
    it2.bytes = it.bytes ∧ it2.last_index = it.last_index ∧ it.index ≤ it2.index := by
  induction it, acc using strLoop.induct with
  | case1 it acc hn =>
    rw [strLoop, hn] at h
    injection h with h1 h2; subst h1; subst h2
    exact ⟨rfl, rfl, Nat.le_refl _⟩
  | case2 it acc it' hn =>
    rw [strLoop, hn] at h
    dsimp only at h
    injection h with h1 h2; subst h1; subst h2
    obtain ⟨g1, g2, g3, -, -⟩ := next_byte_some hn
    exact ⟨g1, g2, by omega⟩
  | case3 it acc b it' hn hb ih =>
    rw [strLoop, hn] at h
    dsimp only at h
    rw [if_neg hb] at h
    obtain ⟨h1, h2, h3⟩ := ih h
    obtain ⟨g1, g2, g3, -, -⟩ := next_byte_some hn
    exact ⟨h1.trans g1, h2.trans g2, by omega⟩

theorem numLoop_mono {it : TokenIter} {acc : List Byte} {dot : Bool}
    {bs : List Byte} {dot2 : Bool} {it2 : TokenIter}
    (h : numLoop it acc dot = (bs, dot2, it2)) :
    it2.bytes = it.bytes ∧ it2.last_index = it.last_index ∧ it.index ≤ it2.index := by
  induction it, acc, dot using numLoop.induct with
  | case1 it acc dot hn =>
    rw [numLoop, hn] at h
    injection h with h1 h2; injection h2 with h2 h3
    subst h1; subst h2; subst h3
    exact ⟨rfl, rfl, Nat.le_refl _⟩
  | case2 it acc it' hn =>
    rw [numLoop, hn] at h
    dsimp only at h
    injection h with h1 h2; injection h2 with h2 h3
    subst h1; subst h2; subst h3
    obtain ⟨g1, g2, g3, -, -, -⟩ := next_byte_if_some hn
    exact ⟨g1, g2, by omega⟩
  | case3 it acc dot it' hdot hn ih =>
    rw [numLoop, hn] at h
    dsimp only at h
    rw [if_neg hdot] at h
    obtain ⟨h1, h2, h3⟩ := ih h
    obtain ⟨g1, g2, g3, -, -, -⟩ := next_byte_if_some hn
    exact ⟨h1.trans g1, h2.trans g2, by omega⟩
  | case4 it acc dot b it' hn hb ih =>
    rw [numLoop, hn] at h
    dsimp only at h
    rw [if_neg hb] at h
    obtain ⟨h1, h2, h3⟩ := ih h
    obtain ⟨g1, g2, g3, -, -, -⟩ := next_byte_if_some hn
    exact ⟨h1.trans g1, h2.trans g2, by omega⟩

set_option maxHeartbeats 1000000 in
theorem next_token_mono {kw ty : String → Option String} {b : Byte}
    {it : TokenIter} {r : LexResult} {it2 : TokenIter}
    (h : next_token kw ty b it = (r, it2)) :
    it2.bytes = it.bytes ∧ it2.last_index = it.last_index ∧ it.index ≤ it2.index := by
  unfold next_token at h
  split at h
  · -- letter arm
    split at h
    next bs it' hi =>
      have hm := identLoop_mono hi
      dsimp only at h
      split at h
      · injection h with h1 h2; subst h2; exact hm
      · split at h
        · injection h with h1 h2; subst h2; exact hm
        · injection h with h1 h2; subst h2; exact hm
  · split at h
    · -- string arm
      exact strLoop_mono h
    · split at h
      · -- digit arm
        split at h
        next bs dot it' hn =>
          have hm := numLoop_mono hn
          split at h
          · split at h
            · injection h with h1 h2; subst h2; exact hm
            · injection h with h1 h2; subst h2; exact hm
          · split at h
            · injection h with h1 h2; subst h2; exact hm
            · injection h with h1 h2; subst h2; exact hm
      · -- punctuation and fall-through arms
        repeat' split at h
        all_goals
          injection h with h1 h2
          subst h2
          exact ⟨rfl, rfl, Nat.le_refl _⟩

theorem next_some {kw ty : String → Option String} {it : TokenIter}
    {r : LexResult} {s : TokenIter} (h : next kw ty it = (some r, s)) :
    s.bytes = it.bytes ∧ it.index ≤ s.last_index ∧ s.last_index < s.index ∧
      s.last_index < it.bytes.length := by
  unfold next at h
  split at h
  next => exact absurd h (by simp)
  next it1 hw =>
    split at h
    next => exact absurd h (by simp)
    next it2 hc =>
      dsimp only at h
      split at h
      next => exact absurd h (by simp)
      next b it4 hn =>
        rcases ht : next_token kw ty b it4 with ⟨r', it5⟩
        rw [ht] at h
        dsimp only at h
        injection h with h1 h2
        injection h1 with h1
        subst h1; subst h2
        obtain ⟨w1, -, w3, -⟩ := wsSkipQ_ok hw
        obtain ⟨c1, -, c3, -⟩ := commentLoop_ok hc
        obtain ⟨g1, g2, g3, g4, -⟩ := next_byte_some hn
        obtain ⟨t1, t2, t3⟩ := next_token_mono ht
        dsimp only at g1 g2 g3 g4
        constructor
        · rw [t1, g1, c1, w1]
        refine ⟨?_, ?_, ?_⟩
        · rw [t2, g2]; omega
        · rw [t2, g2]; omega
        · rw [t2, g2]
          have hby : it.bytes.length = it2.bytes.length := by rw [c1, w1]
          omega

theorem next_none {kw ty : String → Option String} {it s : TokenIter}
    (h : next kw ty it = (none, s)) :
    s.bytes = it.bytes ∧ it.index ≤ s.index ∧ peek_byte s = none ∧
      (s.last_index = it.last_index ∨ s.last_index = s.index) := by
  unfold next at h
  split at h
  next hw =>
    injection h with h1 h2; subst h2
    obtain ⟨w1, w2, w3, w4⟩ := wsSkipQ_error hw
    exact ⟨w1, w3, w4, Or.inl w2⟩
  next it1 hw =>
    split at h
    next hc =>
      injection h with h1 h2; subst h2
      obtain ⟨w1, w2, w3, -⟩ := wsSkipQ_ok hw
      obtain ⟨c1, c2, c3, c4⟩ := commentLoop_error hc
      exact ⟨c1.trans w1, by omega, c4, Or.inl (c2.trans w2)⟩
    next it2 hc =>
      dsimp only at h
      split at h
      next hn =>
        injection h with h1 h2; subst h2
        obtain ⟨w1, -, w3, -⟩ := wsSkipQ_ok hw
        obtain ⟨c1, -, c3, -⟩ := commentLoop_ok hc
        have hlen := next_byte_none hn
        dsimp only at hlen
        refine ⟨by dsimp only; rw [c1, w1], by dsimp only; omega, ?_, Or.inr rfl⟩
        unfold peek_byte
        exact List.getElem?_eq_none (by simpa using hlen)
      next b it4 hn =>
        exact absurd h (by simp)

/-- Driving the iterator to exhaustion: the list of every yielded
token-or-error result, in order, with the final iterator state. -/
def tokenize (kw ty : String → Option String) (it : TokenIter) :
    List LexResult × TokenIter :=
  match h : next kw ty it with
  | (none, s) => ([], s)
  | (some r, s) =>
    match tokenize kw ty s with
    | (rs, sf) => (r :: rs, sf)
termination_by it.bytes.length - it.index
decreasing_by
  obtain ⟨h1, h2, h3, h4⟩ := next_some h
  rw [h1]
  omega

/-- Like `tokenize`, but pairing each yielded result with its source span
`src_pos` (the `last_index..index` range right after the pull). -/
def tokenizeWithSpans (kw ty : String → Option String) (it : TokenIter) :
    List (LexResult × Nat × Nat) × TokenIter :=
  match h : next kw ty it with
  | (none, s) => ([], s)
  | (some r, s) =>
    match tokenizeWithSpans kw ty s with
    | (rs, sf) => ((r, src_pos s) :: rs, sf)
termination_by it.bytes.length - it.index
decreasing_by
  obtain ⟨h1, h2, h3, h4⟩ := next_some h
  rw [h1]
  omega

/-- The initial iterator state of `From<&[u8]> for TokenIter`. -/
def initIter (bs : List Byte) : TokenIter := { bytes := bs, last_index := 0, index := 0 }

theorem peek_of_drop {it : TokenIter} {d : Byte} {rest : List Byte}
    (h : it.bytes.drop it.index = d :: rest) : peek_byte it = some d := by
  unfold peek_byte
  have h2 : (it.bytes.drop it.index)[0]? = some d := by rw [h]; simp
  rw [List.getElem?_drop] at h2
  simpa using h2

theorem drop_of_drop {it : TokenIter} {d : Byte} {rest : List Byte}
    (h : it.bytes.drop it.index = d :: rest) :
    it.bytes.drop (it.index + 1) = rest := by
  have h2 := congrArg (List.drop 1) h
  rw [List.drop_drop] at h2
  simpa using h2

theorem next_byte_of_drop {it : TokenIter} {d : Byte} {rest : List Byte}
    (h : it.bytes.drop it.index = d :: rest) :
    next_byte it = some (d, { it with index := it.index + 1 }) := by
  have hp := peek_of_drop h
  unfold peek_byte at hp
  unfold next_byte
  rw [hp]

theorem next_byte_if_step {f : Byte → Bool} {it : TokenIter} {d : Byte} {rest : List Byte}
    (h : it.bytes.drop it.index = d :: rest) (hf : f d = true) :
    next_byte_if f it = some (d, { it with index := it.index + 1 }) := by
  unfold next_byte_if
  rw [peek_of_drop h]
  dsimp only
  rw [if_pos hf]
  exact next_byte_of_drop h

theorem next_byte_if_stop {f : Byte → Bool} {it : TokenIter}
    (h : ∀ c, (it.bytes.drop it.index).head? = some c → f c = false) :
    next_byte_if f it = none := by
  unfold next_byte_if
  cases hp : peek_byte it with
  | none => rfl
  | some c =>
    have hc : f c = false := by
      apply h
      rw [List.head?_eq_getElem?, List.getElem?_drop]
      unfold peek_byte at hp
      simpa using hp
    dsimp only
    rw [hc]
    simp

theorem identLoop_exact {ds : List Byte} : ∀ {it : TokenIter} {acc rest : List Byte},
    ds.all isIdentB = true →
    it.bytes.drop it.index = ds ++ rest →
    (∀ c, rest.head? = some c → isIdentB c = false) →
    identLoop it acc = (acc ++ ds, { it with index := it.index + ds.length }) := by
  induction ds with
  | nil =>
    intro it acc rest hall hdrop hrest
    have hn : next_byte_if isIdentB it = none := by
      apply next_byte_if_stop
      intro c hc
      rw [List.nil_append] at hdrop
      rw [hdrop] at hc
      exact hrest c hc
    rw [identLoop, hn]
    simp
  | cons d ds ih =>
    intro it acc rest hall hdrop hrest
    simp only [List.all_cons, Bool.and_eq_true] at hall
    obtain ⟨hd, hds⟩ := hall
    rw [List.cons_append] at hdrop
    have hstep := next_byte_if_step hdrop hd
    rw [identLoop, hstep]
    dsimp only
    have hdrop2 := drop_of_drop hdrop
    have hrec := @ih { it with index := it.index + 1 } (acc ++ [d]) rest
      hds (by simpa using hdrop2) hrest
    rw [hrec]
    simp only [List.append_assoc, List.singleton_append, List.length_cons]
    have harith : it.index + 1 + ds.length = it.index + (ds.length + 1) := by omega
    rw [harith]

theorem numLoop_digits {ds : List Byte} : ∀ {it : TokenIter} {acc rest : List Byte},
    ds.all isDigitB = true →
    it.bytes.drop it.index = ds ++ rest →
    (∀ c, rest.head? = some c → isNumB c = false) →
    numLoop it acc false = (acc ++ ds, false, { it with index := it.index + ds.length }) := by
  induction ds with
  | nil =>
    intro it acc rest hall hdrop hrest
    have hn : next_byte_if isNumB it = none := by
      apply next_byte_if_stop
      intro c hc
      rw [List.nil_append] at hdrop
      rw [hdrop] at hc
      exact hrest c hc
    rw [numLoop, hn]
    simp
  | cons d ds ih =>
    intro it acc rest hall hdrop hrest
    simp only [List.all_cons, Bool.and_eq_true] at hall
    obtain ⟨hd, hds⟩ := hall
    rw [List.cons_append] at hdrop
    have hstep := next_byte_if_step (f := isNumB) hdrop (by simp [isNumB, hd])
    rw [numLoop, hstep]
    have hne : ¬d = 46 := by
      intro hcontra
      rw [hcontra] at hd
      exact absurd hd (by decide)
    dsimp only
    rw [if_neg hne]
    have hdrop2 := drop_of_drop hdrop
    have hrec := @ih { it with index := it.index + 1 } (acc ++ [d]) rest
      hds (by simpa using hdrop2) hrest
    rw [hrec]
    simp only [List.append_assoc, List.singleton_append, List.length_cons]
    have harith : it.index + 1 + ds.length = it.index + (ds.length + 1) := by omega
    rw [harith]

theorem next_byte_of_drop_nil {it : TokenIter} (h : it.bytes.drop it.index = []) :
    next_byte it = none := by
  unfold next_byte
  have h2 : (it.bytes.drop it.index)[0]? = none := by rw [h]; rfl
  rw [List.getElem?_drop] at h2
  simp only [Nat.add_zero] at h2
  rw [h2]

theorem strLoop_closed {content : List Byte} : ∀ {it : TokenIter} {acc rest : List Byte},
    it.bytes.drop it.index = content ++ 34 :: rest →
    34 ∉ content →
    strLoop it acc =
      ((if utf8Valid (acc ++ content) then
          Except.ok (Token.Literal (Value.Str (acc ++ content)))
        else Except.error TokenizeError.NonUTF8),
       { it with index := it.index + content.length + 1 }) := by
  induction content with
  | nil =>
    intro it acc rest hdrop hnin
    rw [List.nil_append] at hdrop
    have hn := next_byte_of_drop hdrop
    rw [strLoop, hn]
    dsimp only
    simp
  | cons c cs ih =>
    intro it acc rest hdrop hnin
    rw [List.cons_append] at hdrop
    have hc : ¬c = 34 := by
      intro hcontra
      exact hnin (by rw [hcontra]; exact List.mem_cons_self _ _)
    have hn := next_byte_of_drop hdrop
    rw [strLoop, hn]
    dsimp only
    rw [if_neg hc]
    have hdrop2 := drop_of_drop hdrop
    have hrec := @ih { it with index := it.index + 1 } (acc ++ [c]) rest
      (by simpa using hdrop2) (fun hmem => hnin (List.mem_cons_of_mem _ hmem))
    rw [hrec]
    simp only [List.append_assoc, List.singleton_append, List.length_cons]
    have harith : it.index + 1 + cs.length + 1 = it.index + (cs.length + 1) + 1 := by omega
    rw [harith]

theorem strLoop_eof {cs : List Byte} : ∀ {it : TokenIter} {acc : List Byte},
    it.bytes.drop it.index = cs →
    34 ∉ cs →
    strLoop it acc =
      (Except.error TokenizeError.NonTerminatedStr,
       { it with index := it.index + cs.length }) := by
  induction cs with
  | nil =>
    intro it acc hdrop hnin
    have hn := next_byte_of_drop_nil hdrop
    rw [strLoop, hn]
    simp
  | cons c cs ih =>
    intro it acc hdrop hnin
    have hc : ¬c = 34 := by
      intro hcontra
      exact hnin (by rw [hcontra]; exact List.mem_cons_self _ _)
    have hn := next_byte_of_drop hdrop
    rw [strLoop, hn]
    dsimp only
    rw [if_neg hc]
    have hdrop2 := drop_of_drop hdrop
    have hrec := @ih { it with index := it.index + 1 } (acc ++ [c])
      (by simpa using hdrop2) (fun hmem => hnin (List.mem_cons_of_mem _ hmem))
    rw [hrec]
    simp only [List.length_cons]
    have harith : it.index + 1 + cs.length = it.index + (cs.length + 1) := by omega
    rw [harith]

/-- The state carried by either side of a trivia-loop outcome. -/
def exState (e : Except TokenIter TokenIter) : TokenIter :=
  match e with
  | Except.error s => s
  | Except.ok s => s

theorem wsSkipQ_bound {it : TokenIter} (h : it.index ≤ it.bytes.length) :
    (exState (wsSkipQ it)).index ≤ (exState (wsSkipQ it)).bytes.length := by
  induction it using wsSkipQ.induct with
  | case1 it hp =>
    rw [wsSkipQ, hp]
    exact h
  | case2 it b hp hw ih =>
    rw [wsSkipQ, hp]
    dsimp only
    rw [if_pos hw]
    have := peek_byte_some hp
    exact ih (by dsimp only; omega)
  | case3 it b hp hw =>
    rw [wsSkipQ, hp]
    dsimp only
    rw [if_neg hw]
    exact h

theorem blockLoop_bound {it : TokenIter} (h : it.index ≤ it.bytes.length) :
    (exState (blockLoop it)).index ≤ (exState (blockLoop it)).bytes.length := by
  induction it using blockLoop.induct with
  | case1 it hn =>
    rw [blockLoop, hn]
    exact h
  | case2 it b it' hn hb ih =>
    rw [blockLoop, hn]
    dsimp only
    rw [if_pos hb]
    obtain ⟨g1, -, g3, g4, -⟩ := next_byte_some hn
    exact ih (by rw [g1, g3]; omega)
  | case3 it b it' hn hb hp =>
    rw [blockLoop, hn]
    dsimp only
    rw [if_neg hb, hp]
    obtain ⟨g1, -, g3, g4, -⟩ := next_byte_some hn
    dsimp only [exState]
    rw [g1, g3]
    omega
  | case4 it b it' hn hb hp =>
    rw [blockLoop, hn]
    dsimp only
    rw [if_neg hb, hp]
    dsimp only
    rw [if_pos rfl]
    obtain ⟨g1, -, g3, g4, -⟩ := next_byte_some hn
    dsimp only [exState]
    rw [g1, g3]
    omega
  | case5 it b it' hn hb c hp hc ih =>
    rw [blockLoop, hn]
    dsimp only
    rw [if_neg hb, hp]
    dsimp only
    rw [if_neg hc]
    obtain ⟨g1, -, g3, g4, -⟩ := next_byte_some hn
    exact ih (by rw [g1, g3]; omega)

theorem lineLoop_bound {it : TokenIter} (h : it.index ≤ it.bytes.length) :
    (exState (lineLoop it)).index ≤ (exState (lineLoop it)).bytes.length := by
  induction it using lineLoop.induct with
  | case1 it hn =>
    rw [lineLoop, hn]
    exact h
  | case2 it it' hn =>
    rw [lineLoop, hn]
    dsimp only
    rw [if_pos rfl]
    obtain ⟨g1, -, g3, g4, -⟩ := next_byte_some hn
    dsimp only [exState]
    rw [g1, g3]
    omega
  | case3 it b it' hn hb ih =>
    rw [lineLoop, hn]
    dsimp only
    rw [if_neg hb]
    obtain ⟨g1, -, g3, g4, -⟩ := next_byte_some hn
    exact ih (by rw [g1, g3]; omega)

theorem commentKind_bound {c : Byte} {it : TokenIter} (h : it.index ≤ it.bytes.length) :
    (exState (commentKind c it)).index ≤ (exState (commentKind c it)).bytes.length := by
  unfold commentKind
  split
  · exact blockLoop_bound h
  · split
    · exact h
    · exact lineLoop_bound h

theorem commentLoop_bound {it : TokenIter} (h : it.index ≤ it.bytes.length) :
    (exState (commentLoop it)).index ≤ (exState (commentLoop it)).bytes.length := by
  induction it using commentLoop.induct with
  | case1 it hp hn =>
    rw [commentLoop, hp]
    dsimp only
    rw [hn]
    have := peek_byte_some hp
    dsimp only [exState]
    omega
  | case2 it hp b it' hn s' hd =>
    rw [commentLoop, hp]
    dsimp only
    rw [hn]
    dsimp only
    rw [hd]
    have h0 := peek_byte_some hp
    obtain ⟨g1, -, g3, g4, -⟩ := next_byte_some hn
    dsimp only at g1 g3 g4
    have hb : it'.index ≤ it'.bytes.length := by rw [g1, g3]; omega
    have := commentKind_bound (c := b) hb
    rw [hd] at this
    exact this
  | case3 it hp b it' hn it3 hd s' hw =>
    rw [commentLoop, hp]
    dsimp only
    rw [hn]
    dsimp only
    rw [hd]
    dsimp only
    rw [hw]
    have h0 := peek_byte_some hp
    obtain ⟨g1, -, g3, g4, -⟩ := next_byte_some hn
    dsimp only at g1 g3 g4
    have hb : it'.index ≤ it'.bytes.length := by rw [g1, g3]; omega
    have h2 := commentKind_bound (c := b) hb
    rw [hd] at h2
    have h3 := @wsSkipQ_bound it3 h2
    rw [hw] at h3
    exact h3
  | case4 it hp b it' hn it3 hd it4 hw ih =>
    rw [commentLoop, hp]
    dsimp only
    rw [hn]
    dsimp only
    rw [hd]
    dsimp only
    rw [hw]
    have h0 := peek_byte_some hp
    obtain ⟨g1, -, g3, g4, -⟩ := next_byte_some hn
    dsimp only at g1 g3 g4
    have hb : it'.index ≤ it'.bytes.length := by rw [g1, g3]; omega
    have h2 := commentKind_bound (c := b) hb
    rw [hd] at h2
    have h3 := @wsSkipQ_bound it3 h2
    rw [hw] at h3
    exact ih h3
  | case5 it hnp =>
    rw [commentLoop]
    split
    next hp => exact absurd hp (by simpa using hnp)
    next => exact h

theorem identLoop_bound {it : TokenIter} {acc : List Byte} (h : it.index ≤ it.bytes.length) :
    (identLoop it acc).2.index ≤ (identLoop it acc).2.bytes.length := by
  induction it, acc using identLoop.induct with
  | case1 it acc b it' hn ih =>
    rw [identLoop, hn]
    obtain ⟨g1, -, g3, g4, -, -⟩ := next_byte_if_some hn
    exact ih (by rw [g1, g3]; omega)
  | case2 it acc hn =>
    rw [identLoop, hn]
    exact h

theorem strLoop_bound {it : TokenIter} {acc : List Byte} (h : it.index ≤ it.bytes.length) :
    (strLoop it acc).2.index ≤ (strLoop it acc).2.bytes.length := by
  induction it, acc using strLoop.induct with
  | case1 it acc hn =>
    rw [strLoop, hn]
    exact h
  | case2 it acc it' hn =>
    rw [strLoop, hn]
    dsimp only
    rw [if_pos rfl]
    obtain ⟨g1, -, g3, g4, -⟩ := next_byte_some hn
    dsimp only
    rw [g1, g3]
    omega
  | case3 it acc b it' hn hb ih =>
    rw [strLoop, hn]
    dsimp only
    rw [if_neg hb]
    obtain ⟨g1, -, g3, g4, -⟩ := next_byte_some hn
    exact ih (by rw [g1, g3]; omega)

theorem numLoop_bound {it : TokenIter} {acc : List Byte} {dot : Bool}
    (h : it.index ≤ it.bytes.length) :
    (numLoop it acc dot).2.2.index ≤ (numLoop it acc dot).2.2.bytes.length := by
  induction it, acc, dot using numLoop.induct with
  | case1 it acc dot hn =>
    rw [numLoop, hn]
    exact h
  | case2 it acc it' hn =>
    rw [numLoop, hn]
    dsimp only
    rw [if_pos rfl, if_pos rfl]
    obtain ⟨g1, -, g3, g4, -, -⟩ := next_byte_if_some hn
    dsimp only
    rw [g1, g3]
    omega
  | case3 it acc dot it' hdot hn ih =>
    rw [numLoop, hn]
    dsimp only
    rw [if_neg hdot]
    obtain ⟨g1, -, g3, g4, -, -⟩ := next_byte_if_some hn
    exact ih (by rw [g1, g3]; omega)
  | case4 it acc dot b it' hn hb ih =>
    rw [numLoop, hn]
    dsimp only
    rw [if_neg hb]
    obtain ⟨g1, -, g3, g4, -, -⟩ := next_byte_if_some hn
    exact ih (by rw [g1, g3]; omega)

set_option maxHeartbeats 1000000 in
theorem next_token_bound {kw ty : String → Option String} {b : Byte}
    {it : TokenIter} {r : LexResult} {it2 : TokenIter}
    (h : next_token kw ty b it = (r, it2)) (hb : it.index ≤ it.bytes.length) :
    it2.index ≤ it2.bytes.length := by
  unfold next_token at h
  split at h
  · split at h
    next bs it' hi =>
      have hm := @identLoop_bound it [b] hb
      rw [hi] at hm
      dsimp only at h
      split at h
      · injection h with h1 h2; subst h2; exact hm
      · split at h
        · injection h with h1 h2; subst h2; exact hm
        · injection h with h1 h2; subst h2; exact hm
  · split at h
    · have hm := @strLoop_bound it [] hb
      rw [h] at hm
      exact hm
    · split at h
      · split at h
        next bs dot it' hn =>
          have hm := @numLoop_bound it [b] false hb
          rw [hn] at hm
          split at h
          · split at h
            · injection h with h1 h2; subst h2; exact hm
            · injection h with h1 h2; subst h2; exact hm
          · split at h
            · injection h with h1 h2; subst h2; exact hm
            · injection h with h1 h2; subst h2; exact hm
      · repeat' split at h
        all_goals
          injection h with h1 h2
          subst h2
          exact hb

theorem next_bound {kw ty : String → Option String} {it : TokenIter}
    {r : Option LexResult} {s : TokenIter}
    (h : next kw ty it = (r, s)) (hb : it.index ≤ it.bytes.length) :
    s.index ≤ s.bytes.length := by
  unfold next at h
  split at h
  next s0 hw =>
    injection h with h1 h2; subst h2
    have := @wsSkipQ_bound it hb
    rw [hw] at this
    exact this
  next it1 hw =>
    have hb1 : it1.index ≤ it1.bytes.length := by
      have := @wsSkipQ_bound it hb
      rw [hw] at this
      exact this
    split at h
    next s0 hc =>
      injection h with h1 h2; subst h2
      have := @commentLoop_bound it1 hb1
      rw [hc] at this
      exact this
    next it2 hc =>
      have hb2 : it2.index ≤ it2.bytes.length := by
        have := @commentLoop_bound it1 hb1
        rw [hc] at this
        exact this
      dsimp only at h
      split at h
      next hn =>
        injection h with h1 h2; subst h2
        exact hb2
      next b it4 hn =>
        rcases ht : next_token kw ty b it4 with ⟨r', it5⟩
        rw [ht] at h
        dsimp only at h
        injection h with h1 h2; subst h2
        obtain ⟨g1, -, g3, g4, -⟩ := next_byte_some hn
        dsimp only at g1 g3 g4
        exact next_token_bound ht (by rw [g1, g3]; omega)

/-- The bytes of the half-open range `[i, j)` of `bs`. -/
def slice (bs : List Byte) (i j : Nat) : List Byte := (bs.take j).drop i

theorem slice_append {bs : List Byte} {i j k : Nat} (h1 : i ≤ j) (h2 : j ≤ k) :
    slice bs i j ++ slice bs j k = slice bs i k := by
  unfold slice
  rw [List.drop_take, List.drop_take, List.drop_take]
  rw [show bs.drop j = (bs.drop i).drop (j - i) by rw [List.drop_drop]; congr 1; omega]
  rw [← List.take_add]
  congr 1
  omega

/-- Concatenation, in source order, of the trivia spans and token spans of a
span trace: starting at `pos`, each entry `(result, a, b)` contributes the
trivia bytes `[pos, a)` skipped before the token and the token bytes
`[a, b)`; the trailing trivia `[·, stop)` of the end-of-sequence pull closes
the run. -/
def spanConcat (bs : List Byte) : Nat → List (LexResult × Nat × Nat) → Nat → List Byte
  | pos, [], stop => slice bs pos stop
  | pos, (_, a, b) :: rest, stop =>
    slice bs pos a ++ slice bs a b ++ spanConcat bs b rest stop

theorem tokenizeWithSpans_cover {kw ty : String → Option String} :
    ∀ {it : TokenIter} {trace : List (LexResult × Nat × Nat)} {sf : TokenIter},
    tokenizeWithSpans kw ty it = (trace, sf) →
    sf.bytes = it.bytes ∧ it.index ≤ sf.index ∧ peek_byte sf = none ∧
      spanConcat it.bytes it.index trace sf.index = slice it.bytes it.index sf.index := by
  intro it trace sf h
  induction it using tokenizeWithSpans.induct kw ty generalizing trace sf with
  | case1 it s hn =>
    rw [tokenizeWithSpans, hn] at h
    injection h with h1 h2; subst h1; subst h2
    obtain ⟨n1, n2, n3, -⟩ := next_none hn
    exact ⟨n1, n2, n3, rfl⟩
  | case2 it r s hn rs sf2 hrec ih =>
    rw [tokenizeWithSpans, hn] at h
    dsimp only at h
    rw [hrec] at h
    dsimp only at h
    injection h with h1 h2; subst h1; subst h2
    obtain ⟨i1, i2, i3, i4⟩ := ih hrec
    obtain ⟨n1, n2, n3, n4⟩ := next_some hn
    refine ⟨i1.trans n1, by omega, i3, ?_⟩
    rw [spanConcat]
    unfold src_pos
    rw [n1] at i4
    rw [i4]
    rw [slice_append (by omega) (by omega)]
    rw [slice_append (by omega) (by omega)]

theorem next_some_decomp {kw ty : String → Option String} {it : TokenIter}
    {r : LexResult} {s : TokenIter} (h : next kw ty it = (some r, s)) :
    ∃ it1 it2 b it4,
      wsSkipQ it = Except.ok it1 ∧ commentLoop it1 = Except.ok it2 ∧
      next_byte { it2 with last_index := it2.index } = some (b, it4) ∧
      next_token kw ty b it4 = (r, s) ∧ s.last_index = it2.index := by
  unfold next at h
  split at h
  next => exact absurd h (by simp)
  next it1 hw =>
    split at h
    next => exact absurd h (by simp)
    next it2 hc =>
      dsimp only at h
      split at h
      next => exact absurd h (by simp)
      next b it4 hn =>
        rcases ht : next_token kw ty b it4 with ⟨r', it5⟩
        rw [ht] at h
        dsimp only at h
        injection h with h1 h2
        injection h1 with h1
        subst h1; subst h2
        obtain ⟨-, t2, -⟩ := next_token_mono ht
        obtain ⟨-, g2, -, -, -⟩ := next_byte_some hn
        dsimp only at g2
        exact ⟨it1, it2, b, it4, hw, hc, hn, ht, by rw [t2, g2]⟩

theorem tokenize_eq_withSpans (kw ty : String → Option String) :
    ∀ it : TokenIter,
    tokenize kw ty it =
      ((tokenizeWithSpans kw ty it).1.map Prod.fst, (tokenizeWithSpans kw ty it).2) := by
  intro it
  induction it using tokenize.induct kw ty with
  | case1 it s hn =>
    rw [tokenize, hn, tokenizeWithSpans, hn]
    simp
  | case2 it r s hn rs sf hrec ih =>
    rw [tokenize, hn]
    dsimp only
    rw [hrec]
    rw [tokenizeWithSpans, hn]
    dsimp only
    rcases ht : tokenizeWithSpans kw ty s with ⟨trs, tsf⟩
    rw [ht] at ih
    dsimp only at ih
    rw [hrec] at ih
    injection ih with ih1 ih2
    subst ih1; subst ih2
    simp

theorem strLoop_result {it : TokenIter} {acc : List Byte} {r : LexResult} {it2 : TokenIter}
    (h : strLoop it acc = (r, it2)) :
    r = Except.error TokenizeError.NonTerminatedStr ∨
      r = Except.error TokenizeError.NonUTF8 ∨
      ∃ cs, r = Except.ok (Token.Literal (Value.Str cs)) := by
  induction it, acc using strLoop.induct with
  | case1 it acc hn =>
    rw [strLoop, hn] at h
    injection h with h1 h2
    exact Or.inl h1.symm
  | case2 it acc it' hn =>
    rw [strLoop, hn] at h
    dsimp only at h
    injection h with h1 h2
    subst h1
    by_cases hv : utf8Valid acc = true
    · rw [if_pos hv]
      exact Or.inr (Or.inr ⟨acc, rfl⟩)
    · rw [if_neg hv]
      exact Or.inr (Or.inl rfl)
  | case3 it acc b it' hn hb ih =>
    rw [strLoop, hn] at h
    dsimp only at h
    rw [if_neg hb] at h
    exact ih h

/-! Fuelled, structurally recursive mirrors of the scanning loops.  They are
proof machinery only: `…Fuel_sound` transports a kernel-computable run
(`decide`/`rfl` on concrete inputs) to the well-founded definitions above,
which do not reduce definitionally. -/

def wsSkipQFuel : Nat → TokenIter → Option (Except TokenIter TokenIter)
  | 0, _ => none
  | fuel + 1, it =>
    match peek_byte it with
    | none => some (Except.error it)
    | some b =>
      if isWsB b then wsSkipQFuel fuel { it with index := it.index + 1 }
      else some (Except.ok it)

theorem wsSkipQFuel_sound : ∀ {n : Nat} {it : TokenIter} {e : Except TokenIter TokenIter},
    wsSkipQFuel n it = some e → wsSkipQ it = e := by
  intro n
  induction n with
  | zero => intro it e h; exact absurd h (by simp [wsSkipQFuel])
  | succ n ih =>
    intro it e h
    rw [wsSkipQFuel] at h
    rw [wsSkipQ]
    cases hp : peek_byte it with
    | none =>
      try rw [hp] at h
      dsimp only at h ⊢
      injection h
    | some b =>
      try rw [hp] at h
      dsimp only at h ⊢
      by_cases hw : isWsB b = true
      · rw [if_pos hw] at h ⊢
        exact ih h
      · rw [if_neg hw] at h ⊢
        injection h

def blockLoopFuel : Nat → TokenIter → Option (Except TokenIter TokenIter)
  | 0, _ => none
  | fuel + 1, it =>
    match next_byte it with
    | none => some (Except.error it)
    | some (b, it') =>
      if b ≠ 33 then blockLoopFuel fuel it'
      else
        match peek_byte it' with
        | none => some (Except.error it')
        | some c => if c = 35 then some (Except.ok it') else blockLoopFuel fuel it'

theorem blockLoopFuel_sound : ∀ {n : Nat} {it : TokenIter} {e : Except TokenIter TokenIter},
    blockLoopFuel n it = some e → blockLoop it = e := by
  intro n
  induction n with
  | zero => intro it e h; exact absurd h (by simp [blockLoopFuel])
  | succ n ih =>
    intro it e h
    rw [blockLoopFuel] at h
    rw [blockLoop]
    cases hn : next_byte it with
    | none =>
      try rw [hn] at h
      dsimp only at h ⊢
      injection h
    | some p =>
      rcases p with ⟨b, it'⟩
      try rw [hn] at h
      dsimp only at h ⊢
      by_cases hb : b ≠ 33
      · rw [if_pos hb] at h ⊢
        exact ih h
      · rw [if_neg hb] at h ⊢
        cases hp : peek_byte it' with
        | none =>
          try rw [hp] at h
          dsimp only at h ⊢
          injection h
        | some c =>
          try rw [hp] at h
          dsimp only at h ⊢
          by_cases hc : c = 35
          · rw [if_pos hc] at h ⊢
            injection h
          · rw [if_neg hc] at h ⊢
            exact ih h

def lineLoopFuel : Nat → TokenIter → Option (Except TokenIter TokenIter)
  | 0, _ => none
  | fuel + 1, it =>
    match next_byte it with
    | none => some (Except.error it)
    | some (b, it') =>
      if b = 10 then some (Except.ok it') else lineLoopFuel fuel it'

theorem lineLoopFuel_sound : ∀ {n : Nat} {it : TokenIter} {e : Except TokenIter TokenIter},
    lineLoopFuel n it = some e → lineLoop it = e := by
  intro n
  induction n with
  | zero => intro it e h; exact absurd h (by simp [lineLoopFuel])
  | succ n ih =>
    intro it e h
    rw [lineLoopFuel] at h
    rw [lineLoop]
    cases hn : next_byte it with
    | none =>
      try rw [hn] at h
      dsimp only at h ⊢
      injection h
    | some p =>
      rcases p with ⟨b, it'⟩
      try rw [hn] at h
      dsimp only at h ⊢
      by_cases hb : b = 10
      · rw [if_pos hb] at h ⊢
        injection h
      · rw [if_neg hb] at h ⊢
        exact ih h

def commentLoopFuel : Nat → TokenIter → Option (Except TokenIter TokenIter)
  | 0, _ => none
  | fuel + 1, it =>
    match peek_byte it with
    | none => some (Except.ok it)
    | some b =>
      if b = 35 then
        match next_byte { it with index := it.index + 1 } with
        | none => some (Except.error { it with index := it.index + 1 })
        | some (c, it2) =>
          match (if c = 33 then blockLoopFuel fuel it2
                 else if c = 10 then some (Except.ok it2)
                 else lineLoopFuel fuel it2) with
          | none => none
          | some (Except.error s) => some (Except.error s)
          | some (Except.ok it3) =>
            match wsSkipQFuel fuel it3 with
            | none => none
            | some (Except.error s) => some (Except.error s)
            | some (Except.ok it4) => commentLoopFuel fuel it4
      else some (Except.ok it)

theorem commentLoop_not_hash {it : TokenIter} (h : peek_byte it ≠ some 35) :
    commentLoop it = Except.ok it := by
  rw [commentLoop]
  split
  next hp => exact absurd hp h
  next => rfl

theorem commentLoopFuel_sound : ∀ {n : Nat} {it : TokenIter} {e : Except TokenIter TokenIter},
    commentLoopFuel n it = some e → commentLoop it = e := by
  intro n
  induction n with
  | zero => intro it e h; exact absurd h (by simp [commentLoopFuel])
  | succ n ih =>
    intro it e h
    rw [commentLoopFuel] at h
    cases hp : peek_byte it with
    | none =>
      try rw [hp] at h
      dsimp only at h
      injection h with h
      subst h
      exact commentLoop_not_hash (by rw [hp]; simp)
    | some b =>
      try rw [hp] at h
      dsimp only at h
      by_cases hb : b = 35
      · subst hb
        rw [if_pos rfl] at h
        rw [commentLoop, hp]
        dsimp only
        cases hn : next_byte { it with index := it.index + 1 } with
        | none =>
          try rw [hn] at h
          dsimp only at h ⊢
          injection h
        | some p =>
          rcases p with ⟨c, it2⟩
          try rw [hn] at h
          dsimp only at h ⊢
          rw [commentKind]
          by_cases hc : c = 33
          · rw [if_pos hc] at h ⊢
            cases hbl : blockLoopFuel n it2 with
            | none => rw [hbl] at h; exact absurd h (by simp)
            | some e2 =>
              rw [hbl] at h
              rw [blockLoopFuel_sound hbl]
              cases e2 with
              | error s =>
                dsimp only at h ⊢
                injection h
              | ok it3 =>
                dsimp only at h ⊢
                cases hws : wsSkipQFuel n it3 with
                | none => rw [hws] at h; exact absurd h (by simp)
                | some e3 =>
                  rw [hws] at h
                  rw [wsSkipQFuel_sound hws]
                  cases e3 with
                  | error s =>
                    dsimp only at h ⊢
                    injection h
                  | ok it4 =>
                    dsimp only at h ⊢
                    exact ih h
          · rw [if_neg hc] at h ⊢
            by_cases hnl : c = 10
            · rw [if_pos hnl] at h ⊢
              dsimp only at h ⊢
              cases hws : wsSkipQFuel n it2 with
              | none => rw [hws] at h; exact absurd h (by simp)
              | some e3 =>
                rw [hws] at h
                rw [wsSkipQFuel_sound hws]
                cases e3 with
                | error s =>
                  dsimp only at h ⊢
                  injection h
                | ok it4 =>
                  dsimp only at h ⊢
                  exact ih h
            · rw [if_neg hnl] at h ⊢
              cases hll : lineLoopFuel n it2 with
              | none => rw [hll] at h; exact absurd h (by simp)
              | some e2 =>
                rw [hll] at h
                rw [lineLoopFuel_sound hll]
                cases e2 with
                | error s =>
                  dsimp only at h ⊢
                  injection h
                | ok it3 =>
                  dsimp only at h ⊢
                  cases hws : wsSkipQFuel n it3 with
                  | none => rw [hws] at h; exact absurd h (by simp)
                  | some e3 =>
                    rw [hws] at h
                    rw [wsSkipQFuel_sound hws]
                    cases e3 with
                    | error s =>
                      dsimp only at h ⊢
                      injection h
                    | ok it4 =>
                      dsimp only at h ⊢
                      exact ih h
      · rw [if_neg hb] at h
        injection h with h
        subst h
        exact commentLoop_not_hash
          (by rw [hp]; intro hc; injection hc with hc; exact hb hc)

def identLoopFuel : Nat → TokenIter → List Byte → Option (List Byte × TokenIter)
  | 0, _, _ => none
  | fuel + 1, it, acc =>
    match next_byte_if isIdentB it with
    | some (b, it') => identLoopFuel fuel it' (acc ++ [b])
    | none => some (acc, it)

theorem identLoopFuel_sound : ∀ {n : Nat} {it : TokenIter} {acc : List Byte}
    {p : List Byte × TokenIter},
    identLoopFuel n it acc = some p → identLoop it acc = p := by
  intro n
  induction n with
  | zero => intro it acc p h; exact absurd h (by simp [identLoopFuel])
  | succ n ih =>
    intro it acc p h
    rw [identLoopFuel] at h
    rw [identLoop]
    cases hn : next_byte_if isIdentB it with
    | none =>
      try rw [hn] at h
      dsimp only at h ⊢
      injection h
    | some q =>
      rcases q with ⟨b, it'⟩
      try rw [hn] at h
      dsimp only at h ⊢
      exact ih h

def strLoopFuel : Nat → TokenIter → List Byte → Option (LexResult × TokenIter)
  | 0, _, _ => none
  | fuel + 1, it, acc =>
    match next_byte it with
    | none => some (Except.error TokenizeError.NonTerminatedStr, it)
    | some (b, it') =>
      if b = 34 then
        some (if utf8Valid acc then Except.ok (Token.Literal (Value.Str acc))
              else Except.error TokenizeError.NonUTF8, it')
      else strLoopFuel fuel it' (acc ++ [b])

theorem strLoopFuel_sound : ∀ {n : Nat} {it : TokenIter} {acc : List Byte}
    {p : LexResult × TokenIter},
    strLoopFuel n it acc = some p → strLoop it acc = p := by
  intro n
  induction n with
  | zero => intro it acc p h; exact absurd h (by simp [strLoopFuel])
  | succ n ih =>
    intro it acc p h
    rw [strLoopFuel] at h
    rw [strLoop]
    cases hn : next_byte it with
    | none =>
      try rw [hn] at h
      dsimp only at h ⊢
      injection h
    | some q =>
      rcases q with ⟨b, it'⟩
      try rw [hn] at h
      dsimp only at h ⊢
      by_cases hb : b = 34
      · rw [if_pos hb] at h ⊢
        injection h
      · rw [if_neg hb] at h ⊢
        exact ih h

def numLoopFuel : Nat → TokenIter → List Byte → Bool → Option (List Byte × Bool × TokenIter)
  | 0, _, _, _ => none
  | fuel + 1, it, acc, dot =>
    match next_byte_if isNumB it with
    | none => some (acc, dot, it)
    | some (b, it') =>
      if b = 46 then
        if dot then some (acc, dot, it')
        else numLoopFuel fuel it' (acc ++ [b]) true
      else numLoopFuel fuel it' (acc ++ [b]) dot

theorem numLoopFuel_sound : ∀ {n : Nat} {it : TokenIter} {acc : List Byte} {dot : Bool}
    {p : List Byte × Bool × TokenIter},
    numLoopFuel n it acc dot = some p → numLoop it acc dot = p := by
  intro n
  induction n with
  | zero => intro it acc dot p h; exact absurd h (by simp [numLoopFuel])
  | succ n ih =>
    intro it acc dot p h
    rw [numLoopFuel] at h
    rw [numLoop]
    cases hn : next_byte_if isNumB it with
    | none =>
      try rw [hn] at h
      dsimp only at h ⊢
      injection h
    | some q =>
      rcases q with ⟨b, it'⟩
      try rw [hn] at h
      dsimp only at h ⊢
      by_cases hb : b = 46
      · rw [if_pos hb] at h ⊢
        cases dot with
        | true =>
          rw [if_pos rfl] at h ⊢
          injection h
        | false =>
          rw [if_neg (by simp)] at h ⊢
          exact ih h
      · rw [if_neg hb] at h ⊢
        exact ih h

def nextTokenFuel (fuel : Nat) (kw ty : String → Option String) (byte : Byte)
    (it : TokenIter) : Option (LexResult × TokenIter) :=
  if isLetterB byte then
    match identLoopFuel fuel it [byte] with
    | none => none
    | some (bs, it') =>
      let str := asciiToString bs
      match kw str with
      | some k => some (Except.ok (Token.Keyword k), it')
      | none =>
        match ty str with
        | some t => some (Except.ok (Token.Ty t), it')
        | none => some (Except.ok (Token.Identifier str), it')
  else if byte = 34 then
    strLoopFuel fuel it []
  else if isDigitB byte then
    match numLoopFuel fuel it [byte] false with
    | none => none
    | some (bs, dot, it') =>
      if dot then
        match parseFloatSpec bs with
        | some q => some (Except.ok (Token.Literal (Value.Float q)), it')
        | none => some (Except.error TokenizeError.InvalidFloatLiteral, it')
      else
        match parseIntSpec bs with
        | some n => some (Except.ok (Token.Literal (Value.Int n)), it')
        | none => some (Except.error TokenizeError.InvalidIntLiteral, it')
  else if byte = 42 then some (Except.ok Token.Star, it)
  else if byte = 44 then some (Except.ok Token.Comma, it)
  else if byte = 58 then some (Except.ok Token.Colon, it)
  else if byte = 59 then some (Except.ok Token.SemiColon, it)
  else if byte = 64 then some (Except.ok Token.At, it)
  else if byte = 40 then some (Except.ok Token.LeftSmooth, it)
  else if byte = 41 then some (Except.ok Token.RightSmooth, it)
  else if byte = 63 then some (Except.ok Token.QuestionMark, it)
  else some (Except.error TokenizeError.UnexpectedCharacter, it)

set_option maxHeartbeats 1000000 in
theorem nextTokenFuel_sound {n : Nat} {kw ty : String → Option String} {b : Byte}
    {it : TokenIter} {p : LexResult × TokenIter}
    (h : nextTokenFuel n kw ty b it = some p) : next_token kw ty b it = p := by
  unfold nextTokenFuel at h
  unfold next_token
  by_cases hl : isLetterB b = true
  · rw [if_pos hl] at h ⊢
    cases hi : identLoopFuel n it [b] with
    | none => rw [hi] at h; exact absurd h (by simp)
    | some q =>
      rcases q with ⟨bs, it'⟩
      rw [hi] at h
      rw [identLoopFuel_sound hi]
      dsimp only at h ⊢
      cases hk : kw (asciiToString bs) with
      | some k =>
        rw [hk] at h
        dsimp only at h
        injection h
      | none =>
        rw [hk] at h
        dsimp only at h
        cases ht : ty (asciiToString bs) with
        | some t =>
          rw [ht] at h
          dsimp only at h
          injection h
        | none =>
          rw [ht] at h
          dsimp only at h
          injection h
  · rw [if_neg hl] at h ⊢
    by_cases hq : b = 34
    · rw [if_pos hq] at h ⊢
      exact strLoopFuel_sound h
    · rw [if_neg hq] at h ⊢
      by_cases hd : isDigitB b = true
      · rw [if_pos hd] at h ⊢
        cases hnum : numLoopFuel n it [b] false with
        | none => rw [hnum] at h; exact absurd h (by simp)
        | some q =>
          rcases q with ⟨bs, dot, it'⟩
          rw [hnum] at h
          rw [numLoopFuel_sound hnum]
          dsimp only at h ⊢
          cases dot with
          | true =>
            rw [if_pos rfl] at h ⊢
            cases hf : parseFloatSpec bs with
            | some v =>
              rw [hf] at h
              dsimp only at h
              injection h
            | none =>
              rw [hf] at h
              dsimp only at h
              injection h
          | false =>
            rw [if_neg (by simp)] at h ⊢
            cases hi2 : parseIntSpec bs with
            | some v =>
              rw [hi2] at h
              dsimp only at h
              injection h
            | none =>
              rw [hi2] at h
              dsimp only at h
              injection h
      · rw [if_neg hd] at h ⊢
        by_cases h42 : b = 42
        · rw [if_pos h42] at h ⊢; injection h
        · rw [if_neg h42] at h ⊢
          by_cases h44 : b = 44
          · rw [if_pos h44] at h ⊢; injection h
          · rw [if_neg h44] at h ⊢
            by_cases h58 : b = 58
            · rw [if_pos h58] at h ⊢; injection h
            · rw [if_neg h58] at h ⊢
              by_cases h59 : b = 59
              · rw [if_pos h59] at h ⊢; injection h
              · rw [if_neg h59] at h ⊢
                by_cases h64 : b = 64
                · rw [if_pos h64] at h ⊢; injection h
                · rw [if_neg h64] at h ⊢
                  by_cases h40 : b = 40
                  · rw [if_pos h40] at h ⊢; injection h
                  · rw [if_neg h40] at h ⊢
                    by_cases h41 : b = 41
                    · rw [if_pos h41] at h ⊢; injection h
                    · rw [if_neg h41] at h ⊢
                      by_cases h63 : b = 63
                      · rw [if_pos h63] at h ⊢; injection h
                      · rw [if_neg h63] at h ⊢; injection h

def nextFuel (fuel : Nat) (kw ty : String → Option String) (it : TokenIter) :
    Option (Option LexResult × TokenIter) :=
  match wsSkipQFuel fuel it with
  | none => none
  | some (Except.error s) => some (none, s)
  | some (Except.ok it1) =>
    match commentLoopFuel fuel it1 with
    | none => none
    | some (Except.error s) => some (none, s)
    | some (Except.ok it2) =>
      let it3 : TokenIter := { it2 with last_index := it2.index }
      match next_byte it3 with
      | none => some (none, it3)
      | some (b, it4) =>
        match nextTokenFuel fuel kw ty b it4 with
        | none => none
        | some (r, it5) => some (some r, it5)

theorem nextFuel_sound {n : Nat} {kw ty : String → Option String} {it : TokenIter}
    {p : Option LexResult × TokenIter}
    (h : nextFuel n kw ty it = some p) : next kw ty it = p := by
  unfold nextFuel at h
  unfold next
  cases hw : wsSkipQFuel n it with
  | none => rw [hw] at h; exact absurd h (by simp)
  | some e1 =>
    rw [hw] at h
    rw [wsSkipQFuel_sound hw]
    cases e1 with
    | error s =>
      dsimp only at h ⊢
      injection h
    | ok it1 =>
      dsimp only at h ⊢
      cases hc : commentLoopFuel n it1 with
      | none => rw [hc] at h; exact absurd h (by simp)
      | some e2 =>
        rw [hc] at h
        rw [commentLoopFuel_sound hc]
        cases e2 with
        | error s =>
          dsimp only at h ⊢
          injection h
        | ok it2 =>
          dsimp only at h ⊢
          cases hn : next_byte { it2 with last_index := it2.index } with
          | none =>
            try rw [hn] at h
            dsimp only at h ⊢
            injection h
          | some q =>
            rcases q with ⟨b, it4⟩
            try rw [hn] at h
            dsimp only at h ⊢
            cases ht : nextTokenFuel n kw ty b it4 with
            | none => rw [ht] at h; exact absurd h (by simp)
            | some q2 =>
              rcases q2 with ⟨r, it5⟩
              rw [ht] at h
              rw [nextTokenFuel_sound ht]
              dsimp only at h ⊢
              injection h

def tokenizeFuel : Nat → (String → Option String) → (String → Option String) →
    TokenIter → Option (List LexResult × TokenIter)
  | 0, _, _, _ => none
  | fuel + 1, kw, ty, it =>
    match nextFuel fuel kw ty it with
    | none => none
    | some (none, s) => some ([], s)
    | some (some r, s) =>
      match tokenizeFuel fuel kw ty s with
      | none => none
      | some (rs, sf) => some (r :: rs, sf)

theorem tokenizeFuel_sound : ∀ {n : Nat} {kw ty : String → Option String} {it : TokenIter}
    {p : List LexResult × TokenIter},
    tokenizeFuel n kw ty it = some p → tokenize kw ty it = p := by
  intro n
  induction n with
  | zero => intro kw ty it p h; exact absurd h (by simp [tokenizeFuel])
  | succ n ih =>
    intro kw ty it p h
    rw [tokenizeFuel] at h
    cases hn : nextFuel n kw ty it with
    | none => rw [hn] at h; exact absurd h (by simp)
    | some q =>
      rcases q with ⟨r, s⟩
      rw [hn] at h
      have hx := nextFuel_sound hn
      rw [tokenize, hx]
      cases r with
      | none =>
        dsimp only at h ⊢
        injection h
      | some r0 =>
        dsimp only at h ⊢
        cases ht : tokenizeFuel n kw ty s with
        | none => rw [ht] at h; exact absurd h (by simp)
        | some q2 =>
          rcases q2 with ⟨rs, sf⟩
          rw [ht] at h
          rw [ih ht]
          dsimp only at h ⊢
          injection h

theorem isDigitB_not_letter {b : Byte} (h : isDigitB b = true) : isLetterB b = false := by
  unfold isDigitB at h
  unfold isLetterB
  simp only [Bool.and_eq_true, decide_eq_true_eq] at h
  simp only [Bool.or_eq_false_iff, Bool.and_eq_false_iff, decide_eq_false_iff_not]
  exact ⟨Or.inl fun hc => absurd (le_trans hc h.2) (by decide),
         Or.inl fun hc => absurd (le_trans hc h.2) (by decide)⟩

theorem isDigitB_ne_quote {b : Byte} (h : isDigitB b = true) : b ≠ 34 := by
  unfold isDigitB at h
  simp only [Bool.and_eq_true, decide_eq_true_eq] at h
  intro hc
  subst hc
  exact absurd h.1 (by decide)

/-- The tokens with no payload: the fixed punctuation tokens of the lexer. -/
def isFixedPunct : Token → Bool
  | Token.Star => true
  | Token.Comma => true
  | Token.Colon => true
  | Token.SemiColon => true
  | Token.At => true
  | Token.LeftSmooth => true
  | Token.RightSmooth => true
  | Token.QuestionMark => true
  | _ => false

/-- C1, the claim as stated, refuted on input `1.2.3`.  The first pull yields
`Float 1.2` but leaves the cursor at offset 4 — one past the second `.` at
offset 3, which was therefore consumed — and the following pull succeeds
with `Int 3` instead of failing with `UnexpectedCharacter` on the `.`. -/
theorem claim_C1_counterexample :
    next (fun _ => none) (fun _ => none) (initIter [49, 46, 50, 46, 51]) =
      (some (Except.ok (Token.Literal (Value.Float
        ((natOfDigits [49] : Rat) + (natOfDigits [50] : Rat) / (10 : Rat) ^ (1 : Nat))))),
       { bytes := [49, 46, 50, 46, 51], last_index := 0, index := 4 }) ∧
    next (fun _ => none) (fun _ => none)
      { bytes := [49, 46, 50, 46, 51], last_index := 0, index := 4 } =
      (some (Except.ok (Token.Literal (Value.Int 3))),
       { bytes := [49, 46, 50, 46, 51], last_index := 4, index := 5 }) :=
  ⟨nextFuel_sound (n := 10) (by rfl), nextFuel_sound (n := 10) (by rfl)⟩

/-- C1 (amended): when the numeric scan meets a `.` while the
seen-decimal-point flag is already set, that second `.` IS consumed from the
cursor (by `next_byte_if`) but is excluded from the literal text: the run
terminates with the accumulated bytes unchanged and the cursor one past the
`.`, so the following pull resumes at the byte after the `.`. -/
theorem claim_C1_amended {it : TokenIter} {acc : List Byte}
    (h : peek_byte it = some 46) :
    numLoop it acc true = (acc, true, { it with index := it.index + 1 }) := by
  have hn : next_byte_if isNumB it = some (46, { it with index := it.index + 1 }) := by
    unfold next_byte_if
    rw [h]
    dsimp only
    rw [if_pos (by decide)]
    unfold next_byte
    unfold peek_byte at h
    rw [h]
  rw [numLoop, hn]
  dsimp only
  rw [if_pos rfl, if_pos rfl]

/-- Witness for the amended C1 at a concrete state: buffer `1.2.3`, cursor on
the second dot, literal text `1.2` accumulated. -/
theorem claim_C1_witness :
    peek_byte { bytes := [49, 46, 50, 46, 51], last_index := 0, index := 3 } = some 46 ∧
    numLoop { bytes := [49, 46, 50, 46, 51], last_index := 0, index := 3 }
        [49, 46, 50] true =
      ([49, 46, 50], true, { bytes := [49, 46, 50, 46, 51], last_index := 0, index := 4 }) :=
  ⟨rfl, claim_C1_amended rfl⟩

/-- C4: reaching end of buffer where a byte is required during comment
scanning (after `#`, inside a block comment, inside a line comment, or in
the trailing whitespace skip) makes the pull return the end-of-sequence
signal `none` — never a `TokenizeError`.  An unterminated block comment is
therefore not an error. -/
theorem claim_C4 (kw ty : String → Option String) {it t s : TokenIter}
    (hw : wsSkipQ it = Except.ok t) (hc : commentLoop t = Except.error s) :
    next kw ty it = (none, s) := by
  unfold next
  rw [hw]
  dsimp only
  rw [hc]

/-- Witness for C4: the unterminated block comment `#! abc` produces
end-of-sequence, not an error. -/
theorem claim_C4_witness :
    wsSkipQ (initIter [35, 33, 32, 97, 98, 99]) =
      Except.ok (initIter [35, 33, 32, 97, 98, 99]) ∧
    commentLoop (initIter [35, 33, 32, 97, 98, 99]) =
      Except.error { bytes := [35, 33, 32, 97, 98, 99], last_index := 0, index := 6 } ∧
    next (fun _ => none) (fun _ => none) (initIter [35, 33, 32, 97, 98, 99]) =
      (none, { bytes := [35, 33, 32, 97, 98, 99], last_index := 0, index := 6 }) := by
  have hw : wsSkipQ (initIter [35, 33, 32, 97, 98, 99]) =
      Except.ok (initIter [35, 33, 32, 97, 98, 99]) :=
    wsSkipQFuel_sound (n := 10) (by rfl)
  have hc : commentLoop (initIter [35, 33, 32, 97, 98, 99]) =
      Except.error { bytes := [35, 33, 32, 97, 98, 99], last_index := 0, index := 6 } :=
    commentLoopFuel_sound (n := 10) (by rfl)
  exact ⟨hw, hc, claim_C4 (fun _ => none) (fun _ => none) hw hc⟩

/-- C10: once the cursor has reached (or passed) the end of the buffer,
every pull returns the end-of-sequence signal and leaves the iterator state
exactly unchanged — the iterator is fused — and the remaining result
sequence is empty. -/
theorem claim_C10 (kw ty : String → Option String) (it : TokenIter)
    (h : it.bytes.length ≤ it.index) :
    next kw ty it = (none, it) ∧ tokenize kw ty it = ([], it) := by
  have hp : peek_byte it = none := by
    unfold peek_byte
    exact List.getElem?_eq_none h
  have hw : wsSkipQ it = Except.error it := by
    rw [wsSkipQ, hp]
  have hn : next kw ty it = (none, it) := by
    unfold next
    rw [hw]
  refine ⟨hn, ?_⟩
  rw [tokenize, hn]

/-- Witness for C10 at a concrete exhausted state. -/
theorem claim_C10_witness :
    ([42, 59] : List Byte).length ≤ 2 ∧
    next (fun _ => none) (fun _ => none)
        { bytes := [42, 59], last_index := 1, index := 2 } =
      (none, { bytes := [42, 59], last_index := 1, index := 2 }) ∧
    tokenize (fun _ => none) (fun _ => none)
        { bytes := [42, 59], last_index := 1, index := 2 } =
      ([], { bytes := [42, 59], last_index := 1, index := 2 }) := by
  have h := claim_C10 (fun _ => none) (fun _ => none)
    { bytes := [42, 59], last_index := 1, index := 2 } (by decide)
  exact ⟨by decide, h.1, h.2⟩

/-- C3: when the block-comment scan breaks (a consumed byte equalled `!` and
the peeked byte equals `#`), the closing `#` is left unconsumed at the
cursor, and the comment loop then handles that `#` exactly as a fresh
comment start: it consumes the `#` (index + 1) and then exactly one more
byte (`next_byte`) whose value selects the comment kind via the generic
dispatch (`!` block comment, newline empty comment, otherwise line
comment), exactly like the byte after any other `#`. -/
theorem claim_C3 {it s : TokenIter} (h : blockLoop it = Except.ok s) :
    s.bytes = it.bytes ∧ peek_byte s = some 35 ∧
    (next_byte { s with index := s.index + 1 } = none →
      commentLoop s = Except.error { s with index := s.index + 1 }) ∧
    (∀ c it2, next_byte { s with index := s.index + 1 } = some (c, it2) →
      (∀ t, commentKind c it2 = Except.error t → commentLoop s = Except.error t) ∧
      (∀ it3, commentKind c it2 = Except.ok it3 →
        (∀ t, wsSkipQ it3 = Except.error t → commentLoop s = Except.error t) ∧
        (∀ it4, wsSkipQ it3 = Except.ok it4 → commentLoop s = commentLoop it4))) := by
  obtain ⟨h1, -, -, hp⟩ := blockLoop_ok h
  refine ⟨h1, hp, ?_, ?_⟩
  · intro hn
    rw [commentLoop, hp]
    dsimp only
    rw [hn]
  · intro c it2 hn
    constructor
    · intro t hd
      rw [commentLoop, hp]
      dsimp only
      rw [hn]
      dsimp only
      rw [hd]
    · intro it3 hd
      constructor
      · intro t hws
        rw [commentLoop, hp]
        dsimp only
        rw [hn]
        dsimp only
        rw [hd]
        dsimp only
        rw [hws]
      · intro it4 hws
        rw [commentLoop, hp]
        dsimp only
        rw [hn]
        dsimp only
        rw [hd]
        dsimp only
        rw [hws]

/-- Witness for C3: scanning the block comment body of `#!!#y` from offset 2
breaks with the closing `#` (offset 3) unconsumed. -/
theorem claim_C3_witness :
    blockLoop { bytes := [35, 33, 33, 35, 121], last_index := 0, index := 2 } =
      Except.ok { bytes := [35, 33, 33, 35, 121], last_index := 0, index := 3 } ∧
    peek_byte { bytes := [35, 33, 33, 35, 121], last_index := 0, index := 3 } = some 35 := by
  have hb : blockLoop { bytes := [35, 33, 33, 35, 121], last_index := 0, index := 2 } =
      Except.ok { bytes := [35, 33, 33, 35, 121], last_index := 0, index := 3 } :=
    blockLoopFuel_sound (n := 10) (by rfl)
  exact ⟨hb, (claim_C3 hb).2.1⟩

theorem parseIntSpec_digits {b : Byte} {ds : List Byte}
    (hb : isDigitB b = true) (hds : ds.all isDigitB = true) :
    parseIntSpec (b :: ds) = some ((natOfDigits (b :: ds) : Nat) : Int) := by
  unfold parseIntSpec
  rw [if_pos]
  simp [hb, hds]

/-- C5: a digit-started scan whose run `b :: ds` contains only digits and is
maximal (the byte after it, if any, is neither digit nor `.`) yields
`Literal(Integer)` carrying the exact numeric value of the decimal digit
string, and consumes exactly the run. -/
theorem claim_C5 (kw ty : String → Option String) {b : Byte} {it : TokenIter}
    {ds rest : List Byte}
    (hb : isDigitB b = true) (hds : ds.all isDigitB = true)
    (hdrop : it.bytes.drop it.index = ds ++ rest)
    (hrest : ∀ c, rest.head? = some c → isNumB c = false) :
    next_token kw ty b it =
      (Except.ok (Token.Literal (Value.Int (natOfDigits (b :: ds)))),
       { it with index := it.index + ds.length }) := by
  unfold next_token
  rw [if_neg (by rw [isDigitB_not_letter hb]; simp), if_neg (isDigitB_ne_quote hb),
    if_pos hb]
  rw [numLoop_digits hds hdrop hrest]
  dsimp only
  rw [if_neg (by simp)]
  rw [show ([b] ++ ds) = b :: ds from rfl]
  rw [parseIntSpec_digits hb hds]

/-- Witness for C5 on the buffer `123`, first digit already consumed. -/
theorem claim_C5_witness :
    isDigitB 49 = true ∧ ([50, 51] : List Byte).all isDigitB = true ∧
    next_token (fun _ => none) (fun _ => none) 49
        { bytes := [49, 50, 51], last_index := 0, index := 1 } =
      (Except.ok (Token.Literal (Value.Int 123)),
       { bytes := [49, 50, 51], last_index := 0, index := 3 }) := by
  refine ⟨by decide, by decide, ?_⟩
  have h := @claim_C5 (fun _ => none) (fun _ => none)
    49 { bytes := [49, 50, 51], last_index := 0, index := 1 }
    [50, 51] [] (by decide) (by decide) (by rfl)
    (fun c hc => absurd hc (by simp))
  exact h

/-- C6: a letter-started scan whose run `b :: ds` is identifier-shaped and
maximal resolves in the order keyword, then type name, then identifier, the
last carrying exactly the run's text, and consumes exactly the run. -/
theorem claim_C6 (kw ty : String → Option String) {b : Byte} {it : TokenIter}
    {ds rest : List Byte}
    (hb : isLetterB b = true) (hds : ds.all isIdentB = true)
    (hdrop : it.bytes.drop it.index = ds ++ rest)
    (hrest : ∀ c, rest.head? = some c → isIdentB c = false) :
    next_token kw ty b it =
      ((match kw (asciiToString (b :: ds)) with
        | some k => Except.ok (Token.Keyword k)
        | none =>
          match ty (asciiToString (b :: ds)) with
          | some t => Except.ok (Token.Ty t)
          | none => Except.ok (Token.Identifier (asciiToString (b :: ds)))),
       { it with index := it.index + ds.length }) := by
  unfold next_token
  rw [if_pos hb]
  rw [identLoop_exact hds hdrop hrest]
  dsimp only
  rw [show ([b] ++ ds) = b :: ds from rfl]
  cases hk : kw (asciiToString (b :: ds)) with
  | some k => rfl
  | none =>
    cases ht : ty (asciiToString (b :: ds)) with
    | some t => rfl
    | none => rfl

/-- Witness for C6 on the buffer `foo` with resolvers recognising `fn` and
`int32` (neither matches, so an Identifier with the exact run is yielded). -/
theorem claim_C6_witness :
    isLetterB 102 = true ∧ ([111, 111] : List Byte).all isIdentB = true ∧
    next_token (fun s => if s = "fn" then some "fn" else none)
        (fun s => if s = "int32" then some "int32" else none) 102
        { bytes := [102, 111, 111], last_index := 0, index := 1 } =
      (Except.ok (Token.Identifier "foo"),
       { bytes := [102, 111, 111], last_index := 0, index := 3 }) := by
  refine ⟨by decide, by decide, ?_⟩
  have h := @claim_C6 (fun s => if s = "fn" then some "fn" else none)
    (fun s => if s = "int32" then some "int32" else none)
    102 { bytes := [102, 111, 111], last_index := 0, index := 1 }
    [111, 111] [] (by decide) (by decide) (by rfl)
    (fun c hc => absurd hc (by simp))
  exact h

/-- C7: a token scan started by `"`.  If a closing quote exists, the pull
yields `Literal(String)` containing exactly the raw bytes between the quotes
(no escape processing, so any `"` terminates), failing with `NonUTF8` when
those bytes are not valid text; if the buffer ends first, the pull fails
with `NonTerminatedStr`, consuming the rest of the buffer. -/
theorem claim_C7 (kw ty : String → Option String) (it : TokenIter) :
    (∀ content rest : List Byte,
      it.bytes.drop it.index = content ++ 34 :: rest → 34 ∉ content →
      next_token kw ty 34 it =
        ((if utf8Valid content then Except.ok (Token.Literal (Value.Str content))
          else Except.error TokenizeError.NonUTF8),
         { it with index := it.index + content.length + 1 })) ∧
    (34 ∉ it.bytes.drop it.index →
      next_token kw ty 34 it =
        (Except.error TokenizeError.NonTerminatedStr,
         { it with index := it.index + (it.bytes.drop it.index).length })) := by
  constructor
  · intro content rest hdrop hnin
    unfold next_token
    rw [if_neg (by decide), if_pos rfl]
    rw [strLoop_closed hdrop hnin]
    rw [show (([] : List Byte) ++ content) = content from rfl]
  · intro hnin
    unfold next_token
    rw [if_neg (by decide), if_pos rfl]
    rw [strLoop_eof rfl hnin]

/-- Witness for C7: `"a"` yields the string literal `a` (content byte 97),
and `"a` with no closing quote fails with `NonTerminatedStr`. -/
theorem claim_C7_witness :
    next_token (fun _ => none) (fun _ => none) 34
        { bytes := [34, 97, 34], last_index := 0, index := 1 } =
      (Except.ok (Token.Literal (Value.Str [97])),
       { bytes := [34, 97, 34], last_index := 0, index := 3 }) ∧
    next_token (fun _ => none) (fun _ => none) 34
        { bytes := [34, 97], last_index := 0, index := 1 } =
      (Except.error TokenizeError.NonTerminatedStr,
       { bytes := [34, 97], last_index := 0, index := 2 }) := by
  constructor
  · have h := (claim_C7 (fun _ => none) (fun _ => none)
      { bytes := [34, 97, 34], last_index := 0, index := 1 }).1 [97] []
      (by rfl) (by decide)
    exact h
  · have h := (claim_C7 (fun _ => none) (fun _ => none)
      { bytes := [34, 97], last_index := 0, index := 1 }).2 (by decide)
    exact h

set_option maxHeartbeats 1000000 in
theorem next_token_fixedPunct {kw ty : String → Option String} {b : Byte}
    {it : TokenIter} {t : Token}
    (h : (next_token kw ty b it).1 = Except.ok t) (hf : isFixedPunct t = true) :
    b ∈ [42, 44, 58, 59, 64, 40, 41, 63] := by
  rcases he : next_token kw ty b it with ⟨r, it2⟩
  rw [he] at h
  dsimp only at h
  subst h
  unfold next_token at he
  split at he
  · split at he
    next bs it' hi =>
      dsimp only at he
      split at he
      · injection he with h1 h2
        injection h1.symm with h1
        subst h1
        exact absurd hf (by simp [isFixedPunct])
      · split at he
        · injection he with h1 h2
          injection h1.symm with h1
          subst h1
          exact absurd hf (by simp [isFixedPunct])
        · injection he with h1 h2
          injection h1.symm with h1
          subst h1
          exact absurd hf (by simp [isFixedPunct])
  · split at he
    next hq =>
      rcases strLoop_result he with hs | hs | ⟨cs, hs⟩
      · exact absurd hs (by simp)
      · exact absurd hs (by simp)
      · injection hs with hs
        subst hs
        exact absurd hf (by simp [isFixedPunct])
    next hq =>
      split at he
      · split at he
        next bs dot it' hn =>
          split at he
          · split at he
            · injection he with h1 h2
              injection h1.symm with h1
              subst h1
              exact absurd hf (by simp [isFixedPunct])
            · injection he with h1 h2
              exact absurd h1.symm (by simp)
          · split at he
            · injection he with h1 h2
              injection h1.symm with h1
              subst h1
              exact absurd hf (by simp [isFixedPunct])
            · injection he with h1 h2
              exact absurd h1.symm (by simp)
      · split at he
        next h42 => subst h42; simp
        next h42 =>
          split at he
          next h44 => subst h44; simp
          next h44 =>
            split at he
            next h58 => subst h58; simp
            next h58 =>
              split at he
              next h59 => subst h59; simp
              next h59 =>
                split at he
                next h64 => subst h64; simp
                next h64 =>
                  split at he
                  next h40 => subst h40; simp
                  next h40 =>
                    split at he
                    next h41 => subst h41; simp
                    next h41 =>
                      split at he
                      next h63 => subst h63; simp
                      next h63 =>
                        injection he with h1 h2
                        exact absurd h1.symm (by simp)

/-- C2, the claim as stated, refuted: there is no set of NINE distinct bytes
each of which, classified in isolation, yields a fixed punctuation token —
the classifier maps exactly the eight bytes `* , : ; @ ( ) ?` to fixed
tokens, and every other byte to a payload token or an error. -/
theorem claim_C2_counterexample :
    ¬ ∃ bs : List Byte, bs.Nodup ∧ bs.length = 9 ∧
      ∀ b ∈ bs, ∃ t, isFixedPunct t = true ∧
        (next_token (fun _ => none) (fun _ => none) b
          { bytes := [b], last_index := 0, index := 1 }).1 = Except.ok t := by
  rintro ⟨bs, hnd, hlen, hall⟩
  have hsub : bs ⊆ [42, 44, 58, 59, 64, 40, 41, 63] := by
    intro b hb
    obtain ⟨t, hf, ht⟩ := hall b hb
    exact next_token_fixedPunct ht hf
  have := (List.Nodup.subperm hnd hsub).length_le
  rw [hlen] at this
  exact absurd this (by decide)

/-- C2 (amended): for each of the EIGHT fixed punctuation bytes
`* , : ; @ ( ) ?`, the input consisting of that single byte yields exactly
its corresponding token on the first pull, the cursor stops after that one
byte, and the sequence then ends. -/
theorem claim_C2 (kw ty : String → Option String) :
    tokenize kw ty (initIter [42]) =
      ([Except.ok Token.Star], { bytes := [42], last_index := 0, index := 1 }) ∧
    tokenize kw ty (initIter [44]) =
      ([Except.ok Token.Comma], { bytes := [44], last_index := 0, index := 1 }) ∧
    tokenize kw ty (initIter [58]) =
      ([Except.ok Token.Colon], { bytes := [58], last_index := 0, index := 1 }) ∧
    tokenize kw ty (initIter [59]) =
      ([Except.ok Token.SemiColon], { bytes := [59], last_index := 0, index := 1 }) ∧
    tokenize kw ty (initIter [64]) =
      ([Except.ok Token.At], { bytes := [64], last_index := 0, index := 1 }) ∧
    tokenize kw ty (initIter [40]) =
      ([Except.ok Token.LeftSmooth], { bytes := [40], last_index := 0, index := 1 }) ∧
    tokenize kw ty (initIter [41]) =
      ([Except.ok Token.RightSmooth], { bytes := [41], last_index := 0, index := 1 }) ∧
    tokenize kw ty (initIter [63]) =
      ([Except.ok Token.QuestionMark], { bytes := [63], last_index := 0, index := 1 }) :=
  ⟨tokenizeFuel_sound (n := 10) (by rfl), tokenizeFuel_sound (n := 10) (by rfl),
   tokenizeFuel_sound (n := 10) (by rfl), tokenizeFuel_sound (n := 10) (by rfl),
   tokenizeFuel_sound (n := 10) (by rfl), tokenizeFuel_sound (n := 10) (by rfl),
   tokenizeFuel_sound (n := 10) (by rfl), tokenizeFuel_sound (n := 10) (by rfl)⟩

/-- C8: over any buffer and any resolvers, concatenating, in source order,
the trivia spans skipped before each pull with the spans `[last_index,
index)` of every yielded token-or-error result, closed by the trivia of the
final end-of-sequence pull, reconstructs the original buffer exactly; and
the span trace carries exactly the results of the plain tokenizer, in
order. -/
theorem claim_C8 (kw ty : String → Option String) (bs : List Byte) :
    spanConcat bs 0 (tokenizeWithSpans kw ty (initIter bs)).1
        (tokenizeWithSpans kw ty (initIter bs)).2.index = bs ∧
    (tokenize kw ty (initIter bs)).1 =
      (tokenizeWithSpans kw ty (initIter bs)).1.map Prod.fst := by
  obtain ⟨h1, -, h3, h4⟩ := @tokenizeWithSpans_cover kw ty (initIter bs)
    (tokenizeWithSpans kw ty (initIter bs)).1
    (tokenizeWithSpans kw ty (initIter bs)).2 rfl
  constructor
  · have hcov : spanConcat bs 0 (tokenizeWithSpans kw ty (initIter bs)).1
        (tokenizeWithSpans kw ty (initIter bs)).2.index =
        slice bs 0 (tokenizeWithSpans kw ty (initIter bs)).2.index := h4
    rw [hcov]
    unfold slice
    rw [List.drop_zero]
    have hlen : bs.length ≤ (tokenizeWithSpans kw ty (initIter bs)).2.index := by
      have := peek_byte_none h3
      rw [h1] at this
      exact this
    exact List.take_of_length_le hlen
  · rw [tokenize_eq_withSpans]

/-- C9: the cursor invariant `last_index ≤ index ≤ length(buffer)` (with
`0 ≤ last_index` trivial over `Nat`) holds for the initial iterator and is
preserved by every pull, yielding or not; and after a pull that yields a
result, the span accessor `src_pos` returns exactly `[last_index, index)`
where `last_index` was set to the cursor position right after trivia
skipping and `index` is where the token scan for that very result stopped. -/
theorem claim_C9 (kw ty : String → Option String) (bs : List Byte) (it : TokenIter)
    (hwf : it.last_index ≤ it.index ∧ it.index ≤ it.bytes.length) :
    ((initIter bs).last_index ≤ (initIter bs).index ∧
      (initIter bs).index ≤ (initIter bs).bytes.length) ∧
    ∀ r s, next kw ty it = (r, s) →
      (s.last_index ≤ s.index ∧ s.index ≤ s.bytes.length) ∧
      s.bytes = it.bytes ∧
      ∀ x, r = some x →
        src_pos s = (s.last_index, s.index) ∧
        ∃ it1 it2 b it4,
          wsSkipQ it = Except.ok it1 ∧ commentLoop it1 = Except.ok it2 ∧
          s.last_index = it2.index ∧
          next_byte { it2 with last_index := it2.index } = some (b, it4) ∧
          next_token kw ty b it4 = (x, s) := by
  refine ⟨by simp [initIter], ?_⟩
  intro r s h
  cases r with
  | none =>
    obtain ⟨n1, n2, n3, n4⟩ := next_none h
    refine ⟨⟨?_, next_bound h hwf.2⟩, n1, ?_⟩
    · rcases n4 with h4 | h4
      · rw [h4]; exact le_trans hwf.1 (le_trans (le_of_eq rfl) (by omega))
      · rw [h4]
    · intro x hx
      exact absurd hx (by simp)
  | some r0 =>
    obtain ⟨m1, m2, m3, m4⟩ := next_some h
    obtain ⟨it1, it2, b, it4, d1, d2, d3, d4, d5⟩ := next_some_decomp h
    refine ⟨⟨le_of_lt m3, next_bound h hwf.2⟩, m1, ?_⟩
    intro x hx
    injection hx with hx
    subst hx
    exact ⟨rfl, it1, it2, b, it4, d1, d2, d5, d3, d4⟩

/-- Witness for C9: the invariant facts of the pull on buffer `*` from the
initial state. -/
theorem claim_C9_witness :
    ((0 : Nat) ≤ 0 ∧ (0 : Nat) ≤ ([42] : List Byte).length) ∧
    (({ bytes := [42], last_index := 0, index := 1 } : TokenIter).last_index ≤
        ({ bytes := [42], last_index := 0, index := 1 } : TokenIter).index ∧
      ({ bytes := [42], last_index := 0, index := 1 } : TokenIter).index ≤
        ({ bytes := [42], last_index := 0, index := 1 } : TokenIter).bytes.length) := by
  have h := (claim_C9 (fun _ => none) (fun _ => none) [42] (initIter [42])
    (by constructor <;> decide)).2
    (some (Except.ok Token.Star)) { bytes := [42], last_index := 0, index := 1 }
    (nextFuel_sound (n := 10) (by rfl))
  exact ⟨⟨le_refl 0, by decide⟩, h.1⟩

end Nail
